import Mathlib

/-!
Verification of the Pathos search library.

This file gives a shallow embedding of the core of the Pathos library:
the search-domain abstraction and `Node` bookkeeping from `pathos/core.py`,
the uninformed algorithms `bfs` and `dfs` from `pathos/searching/uniformed.py`,
the informed algorithm `astar` (and `uniform_cost_search`, which delegates to
it) from `pathos/searching/informed.py`, and the CSP backtracking solver with
MRV variable ordering from `pathos/csp/solvers.py`.

Modelling conventions:
- Python float costs are modelled as integers (`ℤ`): every claim here
  depends only on comparison and addition of step costs, and `ℤ` is an
  ordered ring whose operations the Lean kernel can evaluate on concrete
  inputs.
- The capability tiers (`SearchDomain`, `CostSensitive`, `GoalOriented`,
  `GoalCostOriented`) are collapsed into a single `Problem` record where
  cost-sensitivity is an `Option` field; `Node.expand` branches on it exactly
  where the Python code performs its `isinstance(problem, CostSensitive)`
  check.
- Python's unbounded `while` loops are modelled with an explicit fuel
  parameter; exhausting fuel yields `none`, which models divergence.
- Python's `heapq` priority queue is modelled as a list together with a
  minimum-extraction function; ties between equal priorities are broken by
  insertion order, one of the deterministic orders allowed by the library
  (the heap's tie order is unspecified).
- Python dicts (the CSP assignment, the A* best-cost map) are modelled as
  insertion-ordered association lists and as functions to `Option`
  respectively; sets of states are modelled as boolean predicates.
-/

namespace Pathos

/-- The search-domain abstraction of `pathos/core.py`.  `step_cost` is `some`
exactly for domains satisfying the `CostSensitive` protocol; `is_goal`
corresponds to the `GoalOriented` protocol, which every algorithm studied here
requires. -/
structure Problem (S A : Type) where
  initial_state : S
  actions : S → List A
  result : S → A → S
  step_cost : Option (S → A → S → ℤ)
  is_goal : S → Bool

/-- A node of the search tree, mirroring `Node.__init__`: a state, an optional
parent, the action taken to reach it, and the accumulated path cost. -/
inductive Node (S A : Type) : Type where
  | mk (state : S) (parent : Option (Node S A)) (action : Option A) (path_cost : ℤ)

namespace Node

variable {S A : Type}

def state : Node S A → S
  | .mk s _ _ _ => s

def parent : Node S A → Option (Node S A)
  | .mk _ p _ _ => p

def action : Node S A → Option A
  | .mk _ _ a _ => a

def path_cost : Node S A → ℤ
  | .mk _ _ _ c => c

/-- The `depth` field is computed by `Node.__init__` as
`parent.depth + 1 if parent else 0`; since every Python `Node` is built by
`__init__`, the stored field always equals this recursive value. -/
def depth : Node S A → Nat
  | .mk _ none _ _ => 0
  | .mk _ (some p) _ _ => p.depth + 1

/-- `Node.child`: builds the child node with the given state, action and step
cost, accumulating `path_cost`. -/
def child (n : Node S A) (s : S) (a : A) (step : ℤ) : Node S A :=
  .mk s (some n) (some a) (n.path_cost + step)

end Node

/-- The step cost used by `Node.expand`: the problem's own `step_cost` when the
domain is cost-sensitive, and the default `1.0` otherwise. -/
def stepCostOf {S A : Type} (p : Problem S A) (s : S) (a : A) (t : S) : ℤ :=
  match p.step_cost with
  | some sc => sc s a t
  | none => 1

/-- `Node.expand`: one child per action, in the order the domain yields the
actions, with the `isinstance(problem, CostSensitive)` branch deciding the
step cost. -/
def Node.expand {S A : Type} (n : Node S A) (p : Problem S A) : List (Node S A) :=
  (p.actions n.state).map fun a =>
    let next := p.result n.state a
    n.child next a (stepCostOf p n.state a next)

/-- `extract_solution_path`: walk parent pointers to the root collecting the
actions, then reverse.  (The Python loop appends and reverses; appending on
the recursive call gives the same list.) -/
def extract_solution_path {S A : Type} : Node S A → List A
  | .mk _ none _ _ => []
  | .mk _ (some p) (some a) _ => extract_solution_path p ++ [a]
  | .mk _ (some p) none _ => extract_solution_path p

/-- The root node `Node(state=problem.initial_state)` with the default
arguments of `Node.__init__`. -/
def rootNode {S A : Type} (p : Problem S A) : Node S A :=
  .mk p.initial_state none none 0

section Searching

variable {S A : Type} [DecidableEq S]

/-- Insertion into an explored set (`explored.add(state)` /
set-literal construction). -/
def insertE (E : S → Bool) (s : S) : S → Bool :=
  fun t => if t = s then true else E t

/-- The inner child loop of `bfs`: for each child in order, skip it when its
state is explored, return it when it satisfies the goal test, and otherwise
mark it explored and queue it.  Returns either the goal child or the updated
explored set and the list of newly queued nodes. -/
def bfsScan (p : Problem S A) : List (Node S A) → (S → Bool) → List (Node S A) →
    Sum (Node S A) ((S → Bool) × List (Node S A))
  | [], E, acc => .inr (E, acc)
  | c :: cs, E, acc =>
    if E c.state then bfsScan p cs E acc
    else if p.is_goal c.state then .inl c
    else bfsScan p cs (insertE E c.state) (acc ++ [c])

/-- The `while frontier` loop of `bfs` with a FIFO frontier. -/
def bfsAux (p : Problem S A) : Nat → List (Node S A) → (S → Bool) → Option (Node S A)
  | 0, _, _ => none
  | _ + 1, [], _ => none
  | fuel + 1, node :: rest, E =>
    match bfsScan p (node.expand p) E [] with
    | .inl goal => some goal
    | .inr (E', queued) => bfsAux p fuel (rest ++ queued) E'

/-- `bfs`: early goal test on the initial state, then the FIFO loop with the
initial state pre-inserted in the explored set. -/
def bfs (p : Problem S A) (fuel : Nat) : Option (Node S A) :=
  if p.is_goal p.initial_state then some (rootNode p)
  else bfsAux p fuel [rootNode p] (insertE (fun _ => false) p.initial_state)

/-- The `while frontier` loop of `dfs`.  The frontier list is the stack with
its top at the head (Python pops from the end of the list and appends there,
so the children are pushed reversed).  The goal test happens on the popped
node; the explored set is updated only at pop time. -/
def dfsAux (p : Problem S A) : Nat → List (Node S A) → (S → Bool) → Option (Node S A)
  | 0, _, _ => none
  | _ + 1, [], _ => none
  | fuel + 1, node :: rest, E =>
    if p.is_goal node.state then some node
    else if E node.state then dfsAux p fuel rest E
    else
      let E' := insertE E node.state
      dfsAux p fuel (((node.expand p).filter fun c => !E' c.state).reverse ++ rest) E'

/-- `dfs`: early goal test on the initial state, then the LIFO loop with an
initially empty explored set. -/
def dfs (p : Problem S A) (fuel : Nat) : Option (Node S A) :=
  if p.is_goal p.initial_state then some (rootNode p)
  else dfsAux p fuel [rootNode p] (fun _ => false)

/-- Extraction of a minimal-priority entry: returns the earliest entry with the
least f-score together with the remaining entries.  This models `heappop` on
the heap of `(f_score, node)` tuples. -/
def popMinGo : (ℤ × Node S A) → List (ℤ × Node S A) →
    ((ℤ × Node S A) × List (ℤ × Node S A))
  | best, [] => (best, [])
  | best, e :: es =>
    if e.1 < best.1 then
      let r := popMinGo e es
      (r.1, best :: r.2)
    else
      let r := popMinGo best es
      (r.1, e :: r.2)

def popMin : List (ℤ × Node S A) → Option ((ℤ × Node S A) × List (ℤ × Node S A))
  | [] => none
  | e :: es => some (popMinGo e es)

/-- Best-known-cost map update (`cost_so_far[state] = new_cost`). -/
def updateCost (m : S → Option ℤ) (s : S) (g : ℤ) : S → Option ℤ :=
  fun t => if t = s then some g else m t

/-- The child loop of `astar`: for each child in order, if its state is new or
reached with a strictly cheaper path cost, record the cheaper cost and push a
fresh frontier entry with f-score `g + h`. -/
def relaxChildren (p : Problem S A) (h : S → ℤ) :
    List (Node S A) → List (ℤ × Node S A) → (S → Option ℤ) →
    List (ℤ × Node S A) × (S → Option ℤ)
  | [], fr, m => (fr, m)
  | c :: cs, fr, m =>
    let better :=
      match m c.state with
      | none => true
      | some old => decide (c.path_cost < old)
    if better then
      relaxChildren p h cs (fr ++ [(c.path_cost + h c.state, c)])
        (updateCost m c.state c.path_cost)
    else relaxChildren p h cs fr m

/-- The lazy-deletion test of `astar`: `node.path_cost > cost_so_far[node.state]`.
(Every state ever placed on the frontier is in the map, so the `none` branch is
unreachable from `astar`.) -/
def staleEntry (m : S → Option ℤ) (n : Node S A) : Bool :=
  match m n.state with
  | some c => decide (c < n.path_cost)
  | none => false

/-- The `while frontier` loop of `astar`: pop the least-f entry, discard it if
stale, return it if it is a goal, otherwise expand and relax the children. -/
def astarAux (p : Problem S A) (h : S → ℤ) :
    Nat → List (ℤ × Node S A) → (S → Option ℤ) → Option (Node S A)
  | 0, _, _ => none
  | fuel + 1, fr, m =>
    match popMin fr with
    | none => none
    | some (e, rest) =>
      if staleEntry m e.2 then astarAux p h fuel rest m
      else if p.is_goal e.2.state then some e.2
      else
        let step := relaxChildren p h (e.2.expand p) rest m
        astarAux p h fuel step.1 step.2

/-- `astar`: early goal test, then the priority-queue loop seeded with the root
at f-score `0 + h(initial_state)` and the cost map `{initial_state: 0}`. -/
def astar (p : Problem S A) (h : S → ℤ) (fuel : Nat) : Option (Node S A) :=
  if p.is_goal p.initial_state then some (rootNode p)
  else
    astarAux p h fuel [((rootNode p).path_cost + h p.initial_state, rootNode p)]
      (updateCost (fun _ => none) p.initial_state (rootNode p).path_cost)

/-- `null_heuristic`: always `0.0`. -/
def null_heuristic : S → ℤ := fun _ => 0

/-- `uniform_cost_search`: implemented as `astar(problem, null_heuristic)`. -/
def uniform_cost_search (p : Problem S A) (fuel : Nat) : Option (Node S A) :=
  astar p null_heuristic fuel

end Searching

section Semantics

variable {S A : Type}

/-- `ReachesIn p s acts t`: starting from `s`, the action list `acts` is legal
(each action is offered by `p.actions` at the state where it is taken) and
leads to `t`.  This is the transition semantics determined by the domain
abstraction. -/
def ReachesIn (p : Problem S A) : S → List A → S → Prop
  | s, [], t => t = s
  | s, a :: as, t => a ∈ p.actions s ∧ ReachesIn p (p.result s a) as t

instance reachesInDecidable {S A : Type} [DecidableEq S] [DecidableEq A] (p : Problem S A) :
    (s : S) → (acts : List A) → (t : S) → Decidable (ReachesIn p s acts t)
  | s, [], t => inferInstanceAs (Decidable (t = s))
  | s, a :: as, t =>
    haveI := reachesInDecidable p (p.result s a) as t
    inferInstanceAs (Decidable (_ ∧ _))

/-- The cost of an action sequence from a state, adding `stepCostOf` for each
step (so `1.0` per step for domains without cost capability). -/
def pathCost (p : Problem S A) : S → List A → ℤ
  | _, [] => 0
  | s, a :: as => stepCostOf p s a (p.result s a) + pathCost p (p.result s a) as

/-- A node is valid when its recorded action trace really leads from the
initial state to its state, its `path_cost` is the cost of that trace, and its
`depth` is the length of that trace. -/
def ValidNode (p : Problem S A) (n : Node S A) : Prop :=
  ReachesIn p p.initial_state (extract_solution_path n) n.state ∧
    pathCost p p.initial_state (extract_solution_path n) = n.path_cost ∧
    (extract_solution_path n).length = n.depth

/-- A root-to-goal action sequence. -/
def GoalPath (p : Problem S A) (acts : List A) (t : S) : Prop :=
  ReachesIn p p.initial_state acts t ∧ p.is_goal t = true

/-- All step costs of the problem are nonnegative (the documented precondition
on cost-sensitive domains). -/
def NonnegCosts (p : Problem S A) : Prop :=
  ∀ s a t, 0 ≤ stepCostOf p s a t

/-- The heuristic never overestimates the true remaining cost to any goal:
for every legal action sequence from `s` to a goal state, `h s` is at most its
cost. -/
def Admissible (p : Problem S A) (h : S → ℤ) : Prop :=
  ∀ s acts t, ReachesIn p s acts t → p.is_goal t = true → h s ≤ pathCost p s acts

/-- Uniform or absent step costs (the hypothesis under which BFS is stated to
be optimal in number of actions). -/
def UniformCosts (p : Problem S A) : Prop :=
  p.step_cost = none ∨ ∃ c : ℤ, p.step_cost = some fun _ _ _ => c

end Semantics

section Invariants

variable {S A : Type}

/-- The invariant of the `bfs` loop, relating the FIFO frontier `fr` and the
explored set `E`.  Frontier nodes are valid, their depths are nondecreasing
and span at most two consecutive levels, every frontier state is explored, no
explored state is a goal (each was goal-tested before entering the set), every
explored state is either still awaiting expansion on the frontier or has all
its successors explored, and every frontier node's depth is at most the length
of any legal action sequence reaching its state. -/
structure BfsInv (p : Problem S A) (fr : List (Node S A)) (E : S → Bool) : Prop where
  valid : ∀ n ∈ fr, ValidNode p n
  sorted : (fr.map Node.depth).Sorted (· ≤ ·)
  band : ∀ n ∈ fr, ∀ hd tl, fr = hd :: tl → n.depth ≤ hd.depth + 1
  memE : ∀ n ∈ fr, E n.state = true
  noGoal : ∀ s, E s = true → p.is_goal s = false
  expanded : ∀ s, E s = true →
    (∃ n ∈ fr, n.state = s) ∨ ∀ a ∈ p.actions s, E (p.result s a) = true
  depthMin : ∀ n ∈ fr, ∀ acts, ReachesIn p p.initial_state acts n.state →
    n.depth ≤ acts.length
  initE : E p.initial_state = true

/-- The invariant of the `astar` loop, relating the priority frontier `fr`,
the best-known-cost map `m`, and a ghost set `C` of closed states (states that
were expanded at their current map value and not relaxed since).  Every
frontier entry is a valid node carrying f-score `g + h` whose state's map
value is at most its `g`; every closed state is a non-goal whose successors
have all been relaxed below `g + step`; every state in the map is closed or
has a frontier entry realising its map value; and the initial state is in the
map with value at most `0`. -/
structure AstarInv (p : Problem S A) (h : S → ℤ)
    (fr : List (ℤ × Node S A)) (m : S → Option ℤ) (C : S → Prop) : Prop where
  entries : ∀ e ∈ fr, ValidNode p e.2 ∧ e.1 = e.2.path_cost + h e.2.state ∧
    ∃ c, m e.2.state = some c ∧ c ≤ e.2.path_cost
  closed : ∀ s, C s → p.is_goal s = false ∧
    ∃ g, m s = some g ∧ ∀ a ∈ p.actions s,
      ∃ g', m (p.result s a) = some g' ∧ g' ≤ g + stepCostOf p s a (p.result s a)
  covered : ∀ s g, m s = some g → C s ∨ ∃ e ∈ fr, e.2.state = s ∧ e.2.path_cost = g
  initMem : ∃ g0, m p.initial_state = some g0 ∧ g0 ≤ 0

end Invariants

section CSPDefs

variable {V D : Type} [DecidableEq V]

/-- The CSP abstraction of `pathos/csp/core.py`: an ordered variable list, a
domain per variable, and a consistency predicate over the current partial
assignment. -/
structure CSP (V D : Type) where
  «variables» : List V
  domains : V → List D
  is_consistent : V → D → List (V × D) → Bool

/-- Key lookup in an assignment (dict membership / indexing). -/
def lookupA : List (V × D) → V → Option D
  | [], _ => none
  | (w, d) :: r, v => if v = w then some d else lookupA r v

/-- Deletion of a key (`del assignment[var]`). -/
def eraseA (a : List (V × D)) (v : V) : List (V × D) :=
  a.filter fun q => decide (q.1 ≠ v)

/-- The MRV count: how many values of the variable's domain are consistent
with the current partial assignment (`sum(is_consistent(...) for val in
domains[var])`). -/
def legal_values_count (csp : CSP V D) (a : List (V × D)) (v : V) : Nat :=
  (csp.domains v).countP fun d => csp.is_consistent v d a

/-- Python's `min(xs, key=k)`: the earliest element with the least key. -/
def minByKeyFirst (k : V → Nat) : V → List V → V
  | x, [] => x
  | x, y :: ys => if k y < k x then minByKeyFirst k y ys else minByKeyFirst k x ys

/-- `_select_unassigned_variable`: filter the unassigned variables in
declaration order and take the MRV minimum.  `none` models the `min()` call on
an empty sequence (unreachable from `backtracking_search`). -/
def select_unassigned_variable (a : List (V × D)) (csp : CSP V D) : Option V :=
  match csp.variables.filter fun v => (lookupA a v).isNone with
  | [] => none
  | v :: vs => some (minByKeyFirst (legal_values_count csp a) v vs)

/-- The value loop of `_backtrack`: for each candidate value in declared
order, check consistency, bind, recurse (through `rec`, the one-level-deeper
`_backtrack`), and on failure unbind (`del assignment[var]`) before trying the
next value. -/
def tryValuesFn (csp : CSP V D)
    (rec : List (V × D) → Option (List (V × D)) × List (V × D)) (var : V) :
    List D → List (V × D) → Option (List (V × D)) × List (V × D)
  | [], a => (none, a)
  | d :: ds, a =>
    if csp.is_consistent var d a then
      match rec (a ++ [(var, d)]) with
      | (some sol, a1) => (some sol, a1)
      | (none, a1) => tryValuesFn csp rec var ds (eraseA a1 var)
    else tryValuesFn csp rec var ds a

/-- `_backtrack`, modelled with explicit state passing: the second component of
the result is the final contents of the (mutated-in-place) assignment dict.
The fuel bounds the recursion depth; `backtracking_search` supplies enough for
the depth never to be reached. -/
def backtrackGo (csp : CSP V D) : Nat → List (V × D) →
    Option (List (V × D)) × List (V × D)
  | 0, a => (none, a)
  | fuel + 1, a =>
    if a.length = csp.variables.length then (some a, a)
    else
      match select_unassigned_variable a csp with
      | none => (none, a)
      | some var => tryValuesFn csp (backtrackGo csp fuel) var (csp.domains var) a

/-- The value loop at a given fuel level. -/
def tryValues (csp : CSP V D) (fuel : Nat) (var : V) (ds : List D) (a : List (V × D)) :
    Option (List (V × D)) × List (V × D) :=
  tryValuesFn csp (backtrackGo csp fuel) var ds a

/-- `backtracking_search`: start the recursion from the empty assignment.  The
fuel `|variables| + 1` exceeds the maximal recursion depth (each recursive call
extends the assignment by one binding). -/
def backtracking_search (csp : CSP V D) : Option (List (V × D)) :=
  (backtrackGo csp (csp.variables.length + 1) []).1

/-- Each binding of the assignment, read left to right (in binding order), was
consistent with the partial assignment present when it was bound. -/
def BindConsistent (csp : CSP V D) : List (V × D) → List (V × D) → Prop
  | _, [] => True
  | a, (v, d) :: r =>
    csp.is_consistent v d a = true ∧ BindConsistent csp (a ++ [(v, d)]) r

end CSPDefs

/-! ## Concrete instances used for witnesses and counterexamples -/

/-- A straight line `0 → 1 → 2` with no cost capability; `2` is the goal. -/
def egLine : Problem Nat Nat where
  initial_state := 0
  actions := fun s => if s ≤ 4 then [1] else []
  result := fun s a => s + a
  step_cost := none
  is_goal := fun s => s == 2

/-- As `egLine` but cost-sensitive with unit step costs. -/
def egLineC : Problem Nat Nat where
  initial_state := 0
  actions := fun s => if s ≤ 4 then [1] else []
  result := fun s a => s + a
  step_cost := some fun _ _ _ => 1
  is_goal := fun s => s == 2

/-- A problem whose initial state is already a goal. -/
def egGoal0 : Problem Nat Nat where
  initial_state := 7
  actions := fun _ => [0]
  result := fun s a => s + a
  step_cost := none
  is_goal := fun s => s == 7

/-- Two distinct actions from the initial state both lead to state `1`; no
state is a goal.  Used to exhibit duplicate frontier entries in DFS. -/
def egDup : Problem Nat Nat where
  initial_state := 0
  actions := fun s => if s = 0 then [0, 1] else []
  result := fun _ _ => 1
  step_cost := none
  is_goal := fun _ => false

/-- The step-cost function of `egNegH`: action `0` costs `10`, others `1`. -/
def egNegHCost : Nat → Nat → Nat → ℤ := fun _ a _ => if a = 0 then 10 else 1

/-- Counterexample domain for literal (sign-unrestricted) admissibility:
action `0` reaches goal state `1` at cost `10`, action `1` reaches goal
state `2` at cost `1`. -/
def egNegH : Problem Nat Nat where
  initial_state := 0
  actions := fun s => if s = 0 then [0, 1] else []
  result := fun s a => if s = 0 then a + 1 else s
  step_cost := some egNegHCost
  is_goal := fun s => s == 1 || s == 2

/-- The node `astar egNegH hNeg` returns: goal state `1` at cost `10`. -/
def egNegHBad : Node Nat Nat := .mk 1 (some (rootNode egNegH)) (some 0) 10

/-- The node `uniform_cost_search egNegH` returns: goal state `2` at cost `1`. -/
def egNegHGood : Node Nat Nat := .mk 2 (some (rootNode egNegH)) (some 1) 1

/-- A heuristic that never overestimates the remaining cost to a goal of
`egNegH` but takes a negative value on goal state `1`. -/
def hNeg : Nat → ℤ := fun s => if s = 1 then -100 else 0

/-- The node `bfs` returns on `egLine`: state `2` at depth 2, reached by two
unit-cost steps. -/
def egLineGoalNode : Node Nat Nat :=
  .mk 2 (some (.mk 1 (some (rootNode egLine)) (some 1) 1)) (some 1) 2

/-- A free-standing node with state `1` and path cost `2`, used to exercise
the A* relaxation equations. -/
def egNodeA : Node Nat Nat := .mk 1 none none 2

/-- A free-standing node with state `0` and path cost `7`, used to exercise
the A* lazy-deletion equation. -/
def egNodeB : Node Nat Nat := .mk 0 none none 7

/-- A cost map recording `5` for state `1` and nothing else. -/
def egMap1 : Nat → Option ℤ := fun s => if s = 1 then some 5 else none

/-- A cost map recording `3` for every state. -/
def egMap3 : Nat → Option ℤ := fun _ => some 3

/-- Triangle graph colouring with `n` colours: three mutually adjacent
variables. -/
def triangle (n : Nat) : CSP Nat Nat where
  «variables» := [0, 1, 2]
  domains := fun _ => List.range n
  is_consistent := fun v d a =>
    [0, 1, 2].all fun w => w == v || !(lookupA a w == some d)

/-! ## Basic lemmas about nodes, expansion, and path semantics -/

section NodeLemmas

variable {S A : Type}

@[simp] theorem Node.state_mk (s : S) (pa : Option (Node S A)) (a : Option A) (c : ℤ) :
    (Node.mk s pa a c).state = s := rfl

@[simp] theorem Node.parent_mk (s : S) (pa : Option (Node S A)) (a : Option A) (c : ℤ) :
    (Node.mk s pa a c).parent = pa := rfl

@[simp] theorem Node.action_mk (s : S) (pa : Option (Node S A)) (a : Option A) (c : ℤ) :
    (Node.mk s pa a c).action = a := rfl

@[simp] theorem Node.path_cost_mk (s : S) (pa : Option (Node S A)) (a : Option A) (c : ℤ) :
    (Node.mk s pa a c).path_cost = c := rfl

@[simp] theorem Node.depth_mk_none (s : S) (a : Option A) (c : ℤ) :
    (Node.mk s none a c).depth = 0 := rfl

@[simp] theorem Node.depth_mk_some (s : S) (n : Node S A) (a : Option A) (c : ℤ) :
    (Node.mk s (some n) a c).depth = n.depth + 1 := rfl

@[simp] theorem Node.child_def (n : Node S A) (s : S) (a : A) (g : ℤ) :
    n.child s a g = Node.mk s (some n) (some a) (n.path_cost + g) := rfl

@[simp] theorem extract_root (s : S) (a : Option A) (c : ℤ) :
    extract_solution_path (Node.mk s none a c) = ([] : List A) := rfl

@[simp] theorem extract_child (s : S) (n : Node S A) (a : A) (c : ℤ) :
    extract_solution_path (Node.mk s (some n) (some a) c) =
      extract_solution_path n ++ [a] := rfl

theorem expand_eq (n : Node S A) (p : Problem S A) :
    n.expand p = (p.actions n.state).map fun a =>
      Node.mk (p.result n.state a) (some n) (some a)
        (n.path_cost + stepCostOf p n.state a (p.result n.state a)) := rfl

theorem mem_expand {n c : Node S A} {p : Problem S A} :
    c ∈ n.expand p ↔ ∃ a ∈ p.actions n.state,
      c = Node.mk (p.result n.state a) (some n) (some a)
        (n.path_cost + stepCostOf p n.state a (p.result n.state a)) := by
  simp only [expand_eq, List.mem_map]
  constructor
  · rintro ⟨a, ha, rfl⟩; exact ⟨a, ha, rfl⟩
  · rintro ⟨a, ha, rfl⟩; exact ⟨a, ha, rfl⟩

@[simp] theorem ReachesIn_nil (p : Problem S A) (s t : S) :
    ReachesIn p s [] t ↔ t = s := Iff.rfl

@[simp] theorem ReachesIn_cons (p : Problem S A) (s t : S) (a : A) (as : List A) :
    ReachesIn p s (a :: as) t ↔ a ∈ p.actions s ∧ ReachesIn p (p.result s a) as t :=
  Iff.rfl

theorem ReachesIn_append {p : Problem S A} {s t : S} {as bs : List A} :
    ReachesIn p s (as ++ bs) t ↔ ∃ m, ReachesIn p s as m ∧ ReachesIn p m bs t := by
  induction as generalizing s with
  | nil =>
    simp only [List.nil_append, ReachesIn_nil]
    constructor
    · intro h; exact ⟨s, rfl, h⟩
    · rintro ⟨m, rfl, h⟩; exact h
  | cons a as ih =>
    simp only [List.cons_append, ReachesIn_cons, ih]
    constructor
    · rintro ⟨ha, m, h1, h2⟩; exact ⟨m, ⟨ha, h1⟩, h2⟩
    · rintro ⟨m, ⟨ha, h1⟩, h2⟩; exact ⟨ha, m, h1, h2⟩

@[simp] theorem pathCost_nil (p : Problem S A) (s : S) : pathCost p s [] = 0 := rfl

@[simp] theorem pathCost_cons (p : Problem S A) (s : S) (a : A) (as : List A) :
    pathCost p s (a :: as) =
      stepCostOf p s a (p.result s a) + pathCost p (p.result s a) as := rfl

theorem pathCost_append {p : Problem S A} {s m : S} {as : List A}
    (h : ReachesIn p s as m) (bs : List A) :
    pathCost p s (as ++ bs) = pathCost p s as + pathCost p m bs := by
  induction as generalizing s with
  | nil => rcases h with rfl; simp
  | cons a as ih =>
    rcases h with ⟨-, h2⟩
    simp only [List.cons_append, pathCost_cons, ih h2]
    ring

theorem pathCost_nonneg {p : Problem S A} (hp : NonnegCosts p) (s : S) (as : List A) :
    0 ≤ pathCost p s as := by
  induction as generalizing s with
  | nil => simp
  | cons a as ih => simpa using add_nonneg (hp s a (p.result s a)) (ih (p.result s a))

theorem validNode_root (p : Problem S A) : ValidNode p (rootNode p) := by
  refine ⟨rfl, rfl, rfl⟩

theorem validNode_expand {p : Problem S A} {n c : Node S A}
    (hn : ValidNode p n) (hc : c ∈ n.expand p) : ValidNode p c := by
  rcases mem_expand.1 hc with ⟨a, ha, rfl⟩
  obtain ⟨hreach, hcost, hlen⟩ := hn
  refine ⟨?_, ?_, ?_⟩
  · simp only [extract_child]
    exact ReachesIn_append.2 ⟨n.state, hreach, ha, rfl⟩
  · simp only [extract_child, Node.path_cost_mk, pathCost_append hreach, hcost,
      pathCost_cons, pathCost_nil]
    ring
  · simp [hlen]

theorem expand_state {p : Problem S A} {n c : Node S A} (hc : c ∈ n.expand p) :
    ∃ a ∈ p.actions n.state, c.state = p.result n.state a ∧
      c.path_cost = n.path_cost + stepCostOf p n.state a (p.result n.state a) ∧
      c.depth = n.depth + 1 := by
  rcases mem_expand.1 hc with ⟨a, ha, rfl⟩
  exact ⟨a, ha, rfl, rfl, rfl⟩

theorem expand_covers {p : Problem S A} (n : Node S A) {a : A}
    (ha : a ∈ p.actions n.state) :
    Node.mk (p.result n.state a) (some n) (some a)
      (n.path_cost + stepCostOf p n.state a (p.result n.state a)) ∈ n.expand p := by
  rw [expand_eq]
  exact List.mem_map.2 ⟨a, ha, rfl⟩

end NodeLemmas

section RootLemmas

variable {S A : Type}

@[simp] theorem rootNode_state (p : Problem S A) : (rootNode p).state = p.initial_state := rfl

@[simp] theorem rootNode_path_cost (p : Problem S A) : (rootNode p).path_cost = 0 := rfl

@[simp] theorem rootNode_depth (p : Problem S A) : (rootNode p).depth = 0 := rfl

end RootLemmas

/-! ## No-solution behaviour and goal-only success -/

section NoSolutionLemmas

variable {S A : Type} [DecidableEq S]

theorem bfsScan_inl {p : Problem S A} :
    ∀ {cs : List (Node S A)} {E : S → Bool} {acc : List (Node S A)} {c : Node S A},
      bfsScan p cs E acc = .inl c →
      p.is_goal c.state = true ∧ c ∈ cs ∧ E c.state = false
  | [], _, _, _, h => by simp [bfsScan] at h
  | c' :: cs, E, acc, c, h => by
    rw [bfsScan] at h
    by_cases hE : E c'.state
    · simp only [hE, if_true] at h
      obtain ⟨hg, hm, hEc⟩ := bfsScan_inl h
      exact ⟨hg, List.mem_cons_of_mem _ hm, hEc⟩
    · simp only [hE, if_false, Bool.false_eq_true] at h
      by_cases hg : p.is_goal c'.state
      · simp only [hg, if_true] at h
        cases h
        exact ⟨hg, List.mem_cons_self _ _, by simpa using hE⟩
      · simp only [hg, if_false, Bool.false_eq_true] at h
        obtain ⟨hgc, hm, hEc⟩ := bfsScan_inl h
        refine ⟨hgc, List.mem_cons_of_mem _ hm, ?_⟩
        simp only [insertE] at hEc
        by_cases hcc : c.state = c'.state
        · simp [hcc] at hEc
        · simpa [hcc] using hEc

theorem bfsAux_empty (p : Problem S A) (fuel : Nat) (E : S → Bool) :
    bfsAux p fuel [] E = none := by
  cases fuel <;> rfl

theorem dfsAux_empty (p : Problem S A) (fuel : Nat) (E : S → Bool) :
    dfsAux p fuel [] E = none := by
  cases fuel <;> rfl

theorem astarAux_empty (p : Problem S A) (h : S → ℤ) (fuel : Nat) (m : S → Option ℤ) :
    astarAux p h fuel [] m = none := by
  cases fuel <;> rfl

theorem bfsAux_some_goal {p : Problem S A} :
    ∀ {fuel : Nat} {fr : List (Node S A)} {E : S → Bool} {n : Node S A},
      bfsAux p fuel fr E = some n → p.is_goal n.state = true
  | 0, _, _, _, h => by simp [bfsAux] at h
  | _ + 1, [], _, _, h => by simp [bfsAux] at h
  | fuel + 1, node :: rest, E, n, h => by
    rw [bfsAux] at h
    rcases hscan : bfsScan p (node.expand p) E [] with c | pair
    · rw [hscan] at h; cases h; exact (bfsScan_inl hscan).1
    · rw [hscan] at h; exact bfsAux_some_goal h

theorem dfsAux_some_goal {p : Problem S A} :
    ∀ {fuel : Nat} {fr : List (Node S A)} {E : S → Bool} {n : Node S A},
      dfsAux p fuel fr E = some n → p.is_goal n.state = true
  | 0, _, _, _, h => by simp [dfsAux] at h
  | _ + 1, [], _, _, h => by simp [dfsAux] at h
  | fuel + 1, node :: rest, E, n, h => by
    rw [dfsAux] at h
    by_cases hg : p.is_goal node.state
    · simp only [hg, if_true] at h; cases h; exact hg
    · simp only [hg, if_false, Bool.false_eq_true] at h
      by_cases hE : E node.state
      · simp only [hE, if_true] at h; exact dfsAux_some_goal h
      · simp only [hE, if_false, Bool.false_eq_true] at h; exact dfsAux_some_goal h

theorem astarAux_some_goal {p : Problem S A} {h : S → ℤ} :
    ∀ {fuel : Nat} {fr : List (ℤ × Node S A)} {m : S → Option ℤ} {n : Node S A},
      astarAux p h fuel fr m = some n → p.is_goal n.state = true
  | 0, _, _, _, hh => by simp [astarAux] at hh
  | fuel + 1, fr, m, n, hh => by
    rw [astarAux] at hh
    rcases hpop : popMin fr with _ | ⟨e, rest⟩
    · rw [hpop] at hh; simp at hh
    · rw [hpop] at hh
      by_cases hst : staleEntry m e.2
      · simp only [hst, if_true] at hh; exact astarAux_some_goal hh
      · simp only [hst, if_false, Bool.false_eq_true] at hh
        by_cases hg : p.is_goal e.2.state
        · simp only [hg, if_true] at hh; cases hh; exact hg
        · simp only [hg, if_false, Bool.false_eq_true] at hh; exact astarAux_some_goal hh

theorem bfs_some_goal {p : Problem S A} {fuel : Nat} {n : Node S A}
    (h : bfs p fuel = some n) : p.is_goal n.state = true := by
  rw [bfs] at h
  by_cases hg : p.is_goal p.initial_state
  · simp only [hg, if_true] at h; cases h; exact hg
  · simp only [hg, if_false, Bool.false_eq_true] at h; exact bfsAux_some_goal h

theorem dfs_some_goal {p : Problem S A} {fuel : Nat} {n : Node S A}
    (h : dfs p fuel = some n) : p.is_goal n.state = true := by
  rw [dfs] at h
  by_cases hg : p.is_goal p.initial_state
  · simp only [hg, if_true] at h; cases h; exact hg
  · simp only [hg, if_false, Bool.false_eq_true] at h; exact dfsAux_some_goal h

theorem astar_some_goal {p : Problem S A} {hh : S → ℤ} {fuel : Nat} {n : Node S A}
    (h : astar p hh fuel = some n) : p.is_goal n.state = true := by
  rw [astar] at h
  by_cases hg : p.is_goal p.initial_state
  · simp only [hg, if_true] at h; cases h; exact hg
  · simp only [hg, if_false, Bool.false_eq_true] at h; exact astarAux_some_goal h

end NoSolutionLemmas

/-! ## Claims C3, C4, C6, C8, C9 -/

/-- C9: `Node.expand` enumerates `domain.actions(state)` in the order the
domain yields them and builds exactly one child per action; every node
satisfies `depth = parent.depth + 1` (`0` when the parent is absent); and for
children built by `expand`, `path_cost = parent.path_cost + step_cost(state,
action, next_state)` when the domain is cost-sensitive and
`parent.path_cost + 1.0` otherwise. -/
theorem C9_expand_and_node_invariants (S A : Type) (p : Problem S A) (n : Node S A) :
    (n.expand p = (p.actions n.state).map fun a =>
        n.child (p.result n.state a) a (stepCostOf p n.state a (p.result n.state a))) ∧
    (∀ (s : S) (a : Option A) (c : ℤ), (Node.mk s none a c).depth = 0) ∧
    (∀ (s : S) (par : Node S A) (a : Option A) (c : ℤ),
        (Node.mk s (some par) a c).depth = par.depth + 1) ∧
    (∀ c ∈ n.expand p, ∃ a ∈ p.actions n.state,
        c.state = p.result n.state a ∧ c.depth = n.depth + 1 ∧
        (p.step_cost = none → c.path_cost = n.path_cost + 1) ∧
        (∀ sc, p.step_cost = some sc →
          c.path_cost = n.path_cost + sc n.state a c.state)) := by
  refine ⟨rfl, fun _ _ _ => rfl, fun _ _ _ _ => rfl, ?_⟩
  intro c hc
  obtain ⟨a, ha, hs, hcost, hd⟩ := expand_state hc
  refine ⟨a, ha, hs, hd, ?_, ?_⟩
  · intro hnone; rw [hcost, stepCostOf, hnone]
  · intro sc hsome; rw [hcost, stepCostOf, hsome, hs]

/-- C9 witness: the depth invariant instantiated on the unique child of the
root of the unit-cost line domain, obtained through the expansion clause. -/
theorem C9_witness :
    (Node.mk 1 (some (rootNode egLineC)) (some 1) (1 : ℤ)).depth = (rootNode egLineC).depth + 1 := by
  obtain ⟨a, ha, hs, hd, hrest⟩ :=
    (C9_expand_and_node_invariants Nat Nat egLineC (rootNode egLineC)).2.2.2
      (Node.mk 1 (some (rootNode egLineC)) (some 1) 1)
      (by simp [Node.expand, egLineC, rootNode, Node.child, stepCostOf])
  exact hd

/-- C6: when the initial state already satisfies the goal test, each of `bfs`,
`dfs` and `astar` returns the root node, with depth `0` and path cost `0.0`,
without expanding any node: the result is independent of the `actions` and
`result` fields of the problem. -/
theorem C6_initial_goal_root (S A : Type) [DecidableEq S] (p : Problem S A) (fuel : Nat)
    (hg : p.is_goal p.initial_state = true) :
    bfs p fuel = some (rootNode p) ∧ dfs p fuel = some (rootNode p) ∧
    (∀ h : S → ℤ, astar p h fuel = some (rootNode p)) ∧
    (rootNode p).depth = 0 ∧ (rootNode p).path_cost = 0 ∧
    (∀ (acts : S → List A) (res : S → A → S),
      bfs { p with actions := acts, result := res } fuel = some (rootNode p) ∧
      dfs { p with actions := acts, result := res } fuel = some (rootNode p) ∧
      ∀ h : S → ℤ, astar { p with actions := acts, result := res } h fuel = some (rootNode p)) := by
  refine ⟨by simp [bfs, hg], by simp [dfs, hg], fun h => by simp [astar, hg], rfl, rfl, ?_⟩
  intro acts res
  exact ⟨by simp [bfs, hg, rootNode], by simp [dfs, hg, rootNode],
    fun h => by simp [astar, hg, rootNode]⟩

/-- C6 witness: on a concrete domain whose initial state `7` is a goal. -/
theorem C6_witness :
    bfs egGoal0 3 = some (rootNode egGoal0) ∧ dfs egGoal0 3 = some (rootNode egGoal0) ∧
      astar egGoal0 null_heuristic 3 = some (rootNode egGoal0) :=
  ⟨(C6_initial_goal_root Nat Nat egGoal0 3 (by decide)).1,
   (C6_initial_goal_root Nat Nat egGoal0 3 (by decide)).2.1,
   (C6_initial_goal_root Nat Nat egGoal0 3 (by decide)).2.2.1 null_heuristic⟩

/-- C8: no-solution is an explicit `none` result, never an exception: each
search returns `none` when its frontier is empty, a returned node always
satisfies the goal test (so `some` is reserved for genuine solutions), and the
CSP value loop reports failure for an exhausted candidate list by returning
`none` with the assignment unchanged. -/
theorem C8_no_solution_none (S A V D : Type) [DecidableEq S] [DecidableEq V]
    (p : Problem S A) (h : S → ℤ) (csp : CSP V D) (fuel : Nat) :
    (∀ E, bfsAux p fuel [] E = none) ∧
    (∀ E, dfsAux p fuel [] E = none) ∧
    (∀ m, astarAux p h fuel [] m = none) ∧
    (∀ n, bfs p fuel = some n → p.is_goal n.state = true) ∧
    (∀ n, dfs p fuel = some n → p.is_goal n.state = true) ∧
    (∀ n, astar p h fuel = some n → p.is_goal n.state = true) ∧
    (∀ (var : V) (a : List (V × D)), tryValues csp fuel var [] a = (none, a)) := by
  refine ⟨fun E => bfsAux_empty p fuel E, fun E => dfsAux_empty p fuel E,
    fun m => astarAux_empty p h fuel m,
    fun n hn => bfs_some_goal hn, fun n hn => dfs_some_goal hn,
    fun n hn => astar_some_goal hn, fun var a => rfl⟩

/-- C8 witness: the empty-frontier and exhausted-value cases on concrete
inputs, and a concrete successful `bfs` run whose result satisfies the goal
test. -/
theorem C8_witness :
    bfsAux egLine 5 [] (fun _ => false) = none ∧
      tryValues (triangle 2) 5 0 [] [] = (none, []) ∧
      egGoal0.is_goal (rootNode egGoal0).state = true :=
  ⟨(C8_no_solution_none Nat Nat Nat Nat egLine null_heuristic (triangle 2) 5).1 (fun _ => false),
   (C8_no_solution_none Nat Nat Nat Nat egLine null_heuristic (triangle 2) 5).2.2.2.2.2.2 0 [],
   (C8_no_solution_none Nat Nat Nat Nat egGoal0 null_heuristic (triangle 2) 5).2.2.2.1
     (rootNode egGoal0) (by rw [bfs]; simp [egGoal0, rootNode])⟩

/-- C4: in `dfs` the goal test is performed only when a node is popped from
the LIFO frontier (a popped goal node is returned before any explored-set
check), the explored set is updated only at pop time (the step equation
inserts exactly the popped state and enqueues children filtered only by the
explored set, never by the goal test), and the same state may occur more than
once in the frontier simultaneously before being marked explored (witnessed
concretely on `egDup`). -/
theorem C4_dfs_policy (S A : Type) [DecidableEq S] (p : Problem S A) (fuel : Nat)
    (n : Node S A) (rest : List (Node S A)) (E : S → Bool) :
    (p.is_goal n.state = true → dfsAux p (fuel + 1) (n :: rest) E = some n) ∧
    (p.is_goal n.state = false → E n.state = false →
      dfsAux p (fuel + 1) (n :: rest) E =
        dfsAux p fuel
          (((n.expand p).filter fun c => !(insertE E n.state) c.state).reverse ++ rest)
          (insertE E n.state)) ∧
    (p.is_goal n.state = false → E n.state = true →
      dfsAux p (fuel + 1) (n :: rest) E = dfsAux p fuel rest E) ∧
    ((((rootNode egDup).expand egDup).filter
        fun c => !(insertE (fun _ => false) (0 : Nat)) c.state).map Node.state = [1, 1] ∧
      insertE (fun _ => false) (0 : Nat) 1 = false) := by
  refine ⟨fun hg => by rw [dfsAux]; simp [hg], fun hg hE => by rw [dfsAux]; simp [hg, hE],
    fun hg hE => by rw [dfsAux]; simp [hg, hE], ?_, ?_⟩
  · decide
  · decide

/-- C4 witness: on `egDup`, the popped root is not a goal and not explored, so
one step of the loop marks exactly state `0` explored and pushes both children
(with the duplicated state `1`). -/
theorem C4_witness :
    dfsAux egDup 3 [rootNode egDup] (fun _ => false) =
      dfsAux egDup 2
        ((((rootNode egDup).expand egDup).filter
            fun c => !(insertE (fun _ => false) (0 : Nat)) c.state).reverse ++ [])
        (insertE (fun _ => false) (0 : Nat)) :=
  (C4_dfs_policy Nat Nat egDup 2 (rootNode egDup) [] (fun _ => false)).2.1
    (by decide) (by decide)

/-- C3: the `astar` loop maintains the best-known-cost map: a child whose
state is new, or reached with strictly cheaper path cost than recorded, causes
the map entry to be set to the cheaper cost and a fresh frontier entry to be
pushed (otherwise the child is dropped); and a popped entry whose `path_cost`
is strictly greater than the map's current value for its state is skipped —
the loop continues on the remaining frontier with the map unchanged, with no
goal test and no expansion. -/
theorem C3_astar_cost_map (S A : Type) [DecidableEq S] (p : Problem S A) (h : S → ℤ)
    (fuel : Nat) (c : Node S A) (cs : List (Node S A)) (fr rest : List (ℤ × Node S A))
    (e : ℤ × Node S A) (m : S → Option ℤ) (old cc : ℤ) :
    (m c.state = none → relaxChildren p h (c :: cs) fr m =
        relaxChildren p h cs (fr ++ [(c.path_cost + h c.state, c)])
          (updateCost m c.state c.path_cost)) ∧
    (m c.state = some old → c.path_cost < old → relaxChildren p h (c :: cs) fr m =
        relaxChildren p h cs (fr ++ [(c.path_cost + h c.state, c)])
          (updateCost m c.state c.path_cost)) ∧
    (m c.state = some old → ¬(c.path_cost < old) →
        relaxChildren p h (c :: cs) fr m = relaxChildren p h cs fr m) ∧
    (popMin fr = some (e, rest) → m e.2.state = some cc → cc < e.2.path_cost →
        astarAux p h (fuel + 1) fr m = astarAux p h fuel rest m) := by
  refine ⟨fun hm => by rw [relaxChildren]; simp [hm],
    fun hm hlt => by rw [relaxChildren]; simp [hm, hlt],
    fun hm hge => by rw [relaxChildren]; simp [hm, hge],
    fun hpop hm hlt => ?_⟩
  rw [astarAux, hpop]
  simp [staleEntry, hm, hlt]

/-- C3 witness: a concrete cheaper-path update and a concrete skipped stale
entry. -/
theorem C3_witness :
    relaxChildren egLineC null_heuristic [egNodeA] [] egMap1 =
      relaxChildren egLineC null_heuristic []
        ([] ++ [(egNodeA.path_cost + null_heuristic egNodeA.state, egNodeA)])
        (updateCost egMap1 egNodeA.state egNodeA.path_cost) ∧
    astarAux egLineC null_heuristic 1 [(0, egNodeB)] egMap3 =
      astarAux egLineC null_heuristic 0 [] egMap3 :=
  ⟨(C3_astar_cost_map Nat Nat egLineC null_heuristic 0 egNodeA []
      [] [] (0, egNodeB) egMap1 5 3).2.1
      (by rfl) (by norm_num [egNodeA]),
   (C3_astar_cost_map Nat Nat egLineC null_heuristic 0 egNodeA
      [] [(0, egNodeB)] [] (0, egNodeB) egMap3 5 3).2.2.2
      (by rw [popMin, popMinGo]) (by rfl) (by norm_num [egNodeB])⟩

/-! ## CSP lemmas: assignments, MRV selection, backtracking -/

section CSPLemmas

variable {V D : Type} [DecidableEq V]

theorem lookupA_eq_none {a : List (V × D)} {v : V} :
    lookupA a v = none ↔ v ∉ a.map Prod.fst := by
  induction a with
  | nil => simp [lookupA]
  | cons q r ih =>
    obtain ⟨w, d⟩ := q
    by_cases hv : v = w
    · subst hv; simp [lookupA]
    · simp [lookupA, hv, ih, Ne.symm hv]

theorem eraseA_append_single {a : List (V × D)} {v : V} (hv : v ∉ a.map Prod.fst) (d : D) :
    eraseA (a ++ [(v, d)]) v = a := by
  rw [eraseA, List.filter_append]
  have h1 : a.filter (fun q => decide (q.1 ≠ v)) = a := by
    apply List.filter_eq_self.2
    intro q hq
    simp only [decide_eq_true_eq]
    intro hqv
    exact hv (List.mem_map.2 ⟨q, hq, hqv⟩)
  have h2 : [((v : V), d)].filter (fun q => decide (q.1 ≠ v)) = [] := by simp
  rw [h1, h2, List.append_nil]

theorem minByKeyFirst_spec (k : V → Nat) :
    ∀ (xs : List V) (x : V), ∃ pre post,
      x :: xs = pre ++ minByKeyFirst k x xs :: post ∧
      (∀ w ∈ pre, k (minByKeyFirst k x xs) < k w) ∧
      (∀ w ∈ post, k (minByKeyFirst k x xs) ≤ k w)
  | [], x => ⟨[], [], rfl, by simp, by simp⟩
  | y :: ys, x => by
    rw [minByKeyFirst]
    by_cases hlt : k y < k x
    · simp only [hlt, if_true]
      obtain ⟨pre, post, hdec, hpre, hpost⟩ := minByKeyFirst_spec k ys y
      have hmy : k (minByKeyFirst k y ys) ≤ k y := by
        rcases pre with _ | ⟨q, pre'⟩
        · simp only [List.nil_append] at hdec
          injection hdec with h1 h2
          rw [← h1]
        · have hq : y = q := by simpa using congrArg (List.head? ·) hdec
          subst hq
          exact le_of_lt (hpre y (List.mem_cons_self _ _))
      refine ⟨x :: pre, post, by rw [List.cons_append, ← hdec], ?_, hpost⟩
      intro w hw
      rcases List.mem_cons.1 hw with rfl | hw'
      · exact lt_of_le_of_lt hmy hlt
      · exact hpre w hw'
    · simp only [hlt, if_false]
      obtain ⟨pre, post, hdec, hpre, hpost⟩ := minByKeyFirst_spec k ys x
      rcases pre with _ | ⟨q, pre'⟩
      · simp only [List.nil_append] at hdec
        injection hdec with h1 h2
        refine ⟨[], y :: ys, by rw [List.nil_append, ← h1], by simp, ?_⟩
        intro w hw
        rcases List.mem_cons.1 hw with rfl | hw'
        · rw [← h1]; exact le_of_not_lt hlt
        · exact hpost w (h2 ▸ hw')
      · have hq : x = q := by simpa using congrArg (List.head? ·) hdec
        subst hq
        have hys : ys = pre' ++ minByKeyFirst k x ys :: post := by
          simpa using congrArg (List.tail ·) hdec
        have hmx : k (minByKeyFirst k x ys) < k x := hpre x (List.mem_cons_self _ _)
        refine ⟨x :: y :: pre', post,
          by simpa using congrArg (fun l => x :: y :: l) hys, ?_, hpost⟩
        intro w hw
        rcases List.mem_cons.1 hw with rfl | hw'
        · exact hmx
        · rcases List.mem_cons.1 hw' with rfl | hw''
          · exact lt_of_lt_of_le hmx (le_of_not_lt hlt)
          · exact hpre w (List.mem_cons_of_mem _ hw'')

theorem minByKeyFirst_mem (k : V → Nat) (xs : List V) (x : V) :
    minByKeyFirst k x xs ∈ x :: xs := by
  obtain ⟨pre, post, hdec, -, -⟩ := minByKeyFirst_spec k xs x
  rw [hdec]
  exact List.mem_append.2 (Or.inr (List.mem_cons_self _ _))

theorem select_some_spec {csp : CSP V D} {a : List (V × D)} {m : V}
    (h : select_unassigned_variable a csp = some m) :
    m ∈ csp.variables ∧ lookupA a m = none := by
  rw [select_unassigned_variable] at h
  rcases hf : csp.variables.filter (fun v => (lookupA a v).isNone) with _ | ⟨v, vs⟩
  · rw [hf] at h; cases h
  · rw [hf] at h
    cases h
    have hm : minByKeyFirst (legal_values_count csp a) v vs ∈ v :: vs :=
      minByKeyFirst_mem _ _ _
    rw [← hf] at hm
    have := List.of_mem_filter hm
    exact ⟨List.mem_of_mem_filter hm, by simpa [Option.isNone_iff_eq_none] using this⟩

end CSPLemmas

/-- C7: `_select_unassigned_variable` always selects (when any variable is
unassigned) an unassigned variable whose domain has the fewest values
consistent with the current partial assignment — the count being
`legal_values_count`, one consistency call per candidate value — and among
equally minimal variables the earliest in the iteration order of the variable
list: every unassigned variable strictly before the selected one has a
strictly larger count. -/
theorem C7_mrv_selection (V D : Type) [DecidableEq V] (csp : CSP V D) (a : List (V × D)) :
    (csp.variables.filter (fun v => (lookupA a v).isNone) ≠ [] →
      ∃ m, select_unassigned_variable a csp = some m) ∧
    ∀ m, select_unassigned_variable a csp = some m →
      m ∈ csp.variables ∧ lookupA a m = none ∧
      (∀ w ∈ csp.variables.filter (fun v => (lookupA a v).isNone),
          legal_values_count csp a m ≤ legal_values_count csp a w) ∧
      ∃ pre post,
        csp.variables.filter (fun v => (lookupA a v).isNone) = pre ++ m :: post ∧
        (∀ w ∈ pre, legal_values_count csp a m < legal_values_count csp a w) ∧
        (∀ w ∈ post, legal_values_count csp a m ≤ legal_values_count csp a w) := by
  constructor
  · intro hne
    rw [select_unassigned_variable]
    rcases hf : csp.variables.filter (fun v => (lookupA a v).isNone) with _ | ⟨v, vs⟩
    · exact absurd hf hne
    · exact ⟨_, rfl⟩
  · intro m hsel
    obtain ⟨hmem, hnone⟩ := select_some_spec hsel
    refine ⟨hmem, hnone, ?_, ?_⟩
    · rw [select_unassigned_variable] at hsel
      rcases hf : csp.variables.filter (fun v => (lookupA a v).isNone) with _ | ⟨v, vs⟩
      · rw [hf] at hsel; cases hsel
      · rw [hf] at hsel
        cases hsel
        obtain ⟨pre, post, hdec, hpre, hpost⟩ :=
          minByKeyFirst_spec (legal_values_count csp a) vs v
        intro w hw
        rw [hdec] at hw
        rcases List.mem_append.1 hw with hw' | hw'
        · exact le_of_lt (hpre w hw')
        · rcases List.mem_cons.1 hw' with rfl | hw''
          · exact le_refl _
          · exact hpost w hw''
    · rw [select_unassigned_variable] at hsel
      rcases hf : csp.variables.filter (fun v => (lookupA a v).isNone) with _ | ⟨v, vs⟩
      · rw [hf] at hsel; cases hsel
      · rw [hf] at hsel
        cases hsel
        obtain ⟨pre, post, hdec, hpre, hpost⟩ :=
          minByKeyFirst_spec (legal_values_count csp a) vs v
        exact ⟨pre, post, hdec, hpre, hpost⟩

/-- C7 witness: with variable `0` coloured, MRV (with the earliest-variable
tie-break) selects variable `1` of the triangle, and its count is minimal. -/
theorem C7_witness :
    legal_values_count (triangle 3) [(0, 0)] 1 ≤ legal_values_count (triangle 3) [(0, 0)] 2 :=
  ((C7_mrv_selection Nat Nat (triangle 3) [(0, 0)]).2 1 (by decide)).2.2.1 2 (by decide)

/-! ## Backtracking: restoration on failure, and soundness -/

section BacktrackLemmas

variable {V D : Type} [DecidableEq V]

theorem tryValuesFn_none_restore (csp : CSP V D)
    (rec : List (V × D) → Option (List (V × D)) × List (V × D))
    (IH : ∀ a : List (V × D), (rec a).1 = none → (rec a).2 = a) :
    ∀ (ds : List D) (var : V) (a : List (V × D)), var ∉ a.map Prod.fst →
      (tryValuesFn csp rec var ds a).1 = none → (tryValuesFn csp rec var ds a).2 = a
  | [], var, a, hvar, h => rfl
  | d :: ds, var, a, hvar, h => by
    rw [tryValuesFn] at h ⊢
    by_cases hcons : csp.is_consistent var d a
    · simp only [hcons, if_true] at h ⊢
      rcases hbt : rec (a ++ [(var, d)]) with ⟨r, a1⟩
      rcases r with _ | sol
      · rw [hbt] at h
        dsimp only at h
        dsimp only
        have ha1 : a1 = a ++ [(var, d)] := by
          have h2 := IH (a ++ [(var, d)]) (by rw [hbt])
          rw [hbt] at h2
          exact h2
        rw [ha1, eraseA_append_single hvar] at h ⊢
        exact tryValuesFn_none_restore csp rec IH ds var a hvar h
      · rw [hbt] at h
        dsimp only at h
        exact absurd h (by simp)
    · simp only [hcons, if_false, Bool.false_eq_true] at h ⊢
      exact tryValuesFn_none_restore csp rec IH ds var a hvar h

theorem backtrackGo_none_restore (csp : CSP V D) :
    ∀ (fuel : Nat) (a : List (V × D)), (backtrackGo csp fuel a).1 = none →
      (backtrackGo csp fuel a).2 = a
  | 0, a, _ => rfl
  | fuel + 1, a, h => by
    rw [backtrackGo] at h ⊢
    by_cases hlen : a.length = csp.variables.length
    · simp [hlen] at h
    · simp only [hlen, if_false] at h ⊢
      rcases hsel : select_unassigned_variable a csp with _ | var
      · rfl
      · rw [hsel] at h
        dsimp only at h
        have hvar : var ∉ a.map Prod.fst :=
          lookupA_eq_none.1 (select_some_spec hsel).2
        exact tryValuesFn_none_restore csp (backtrackGo csp fuel)
          (fun a' => backtrackGo_none_restore csp fuel a') _ var a hvar h

end BacktrackLemmas

/-- C10: whenever `_backtrack` returns `None`, the assignment it was given is
exactly restored: every binding added inside the call is deleted before the
failure propagates, so the shared assignment is unchanged for the caller's
sibling exploration. -/
theorem C10_backtrack_restores_assignment (V D : Type) [DecidableEq V]
    (csp : CSP V D) (fuel : Nat) (a : List (V × D))
    (h : (backtrackGo csp fuel a).1 = none) :
    (backtrackGo csp fuel a).2 = a :=
  backtrackGo_none_restore csp fuel a h

/-- C10 witness: the failed search on the 2-colour triangle leaves the empty
assignment empty. -/
theorem C10_witness : (backtrackGo (triangle 2) 4 []).2 = [] :=
  C10_backtrack_restores_assignment Nat Nat (triangle 2) 4 [] (by decide)

section BacktrackSound

variable {V D : Type} [DecidableEq V]

theorem tryValuesFn_sound (csp : CSP V D)
    (rec : List (V × D) → Option (List (V × D)) × List (V × D))
    (hrecNone : ∀ a, (rec a).1 = none → (rec a).2 = a)
    (IH : ∀ (a sol a2 : List (V × D)), (a.map Prod.fst).Nodup →
      (∀ v ∈ a.map Prod.fst, v ∈ csp.variables) →
      rec a = (some sol, a2) →
      ∃ ext, sol = a ++ ext ∧ BindConsistent csp a ext ∧
        sol.length = csp.variables.length ∧ (sol.map Prod.fst).Nodup ∧
        ∀ v ∈ sol.map Prod.fst, v ∈ csp.variables) :
    ∀ (ds : List D) (var : V) (a sol a2 : List (V × D)),
      (a.map Prod.fst).Nodup → (∀ v ∈ a.map Prod.fst, v ∈ csp.variables) →
      var ∈ csp.variables → var ∉ a.map Prod.fst →
      tryValuesFn csp rec var ds a = (some sol, a2) →
      ∃ ext, sol = a ++ ext ∧ BindConsistent csp a ext ∧
        sol.length = csp.variables.length ∧ (sol.map Prod.fst).Nodup ∧
        ∀ v ∈ sol.map Prod.fst, v ∈ csp.variables
  | [], var, a, sol, a2, hnd, hsub, hvin, hvnot, h => by
    rw [tryValuesFn] at h
    exact absurd (congrArg Prod.fst h) (by simp)
  | d :: ds, var, a, sol, a2, hnd, hsub, hvin, hvnot, h => by
    rw [tryValuesFn] at h
    by_cases hcons : csp.is_consistent var d a
    · simp only [hcons, if_true] at h
      rcases hbt : rec (a ++ [(var, d)]) with ⟨r, a1⟩
      rw [hbt] at h
      have hnd' : ((a ++ [(var, d)]).map Prod.fst).Nodup := by
        simp only [List.map_append, List.map_cons, List.map_nil]
        simp [List.nodup_append, hnd, hvnot]
      have hsub' : ∀ v ∈ (a ++ [(var, d)]).map Prod.fst, v ∈ csp.variables := by
        simp only [List.map_append, List.map_cons, List.map_nil]
        intro v hv
        rcases List.mem_append.1 hv with hv' | hv'
        · exact hsub v hv'
        · rcases List.mem_singleton.1 hv' with rfl
          exact hvin
      rcases r with _ | sol'
      · dsimp only at h
        have ha1 : a1 = a ++ [(var, d)] := by
          have h2 := hrecNone (a ++ [(var, d)]) (by rw [hbt])
          rw [hbt] at h2
          exact h2
        rw [ha1, eraseA_append_single hvnot] at h
        exact tryValuesFn_sound csp rec hrecNone IH ds var a sol a2 hnd hsub hvin hvnot h
      · dsimp only at h
        obtain ⟨h1, h2⟩ := Prod.mk.injEq .. ▸ h
        obtain ⟨ext', hsol, hbind, hlen, hnds, hsubs⟩ :=
          IH (a ++ [(var, d)]) sol' a1 hnd' hsub' hbt
        have h1' : sol' = sol := by injection h1
        rw [h1'] at hsol hlen hnds hsubs
        refine ⟨(var, d) :: ext', by rw [hsol, List.append_assoc]; rfl, ?_, hlen, hnds, hsubs⟩
        exact ⟨hcons, hbind⟩
    · simp only [hcons, if_false, Bool.false_eq_true] at h
      exact tryValuesFn_sound csp rec hrecNone IH ds var a sol a2 hnd hsub hvin hvnot h

theorem backtrackGo_sound (csp : CSP V D) :
    ∀ (fuel : Nat) (a sol a2 : List (V × D)),
      (a.map Prod.fst).Nodup → (∀ v ∈ a.map Prod.fst, v ∈ csp.variables) →
      backtrackGo csp fuel a = (some sol, a2) →
      ∃ ext, sol = a ++ ext ∧ BindConsistent csp a ext ∧
        sol.length = csp.variables.length ∧ (sol.map Prod.fst).Nodup ∧
        ∀ v ∈ sol.map Prod.fst, v ∈ csp.variables
  | 0, a, sol, a2, hnd, hsub, h => by
    exact absurd (congrArg Prod.fst h) (by simp [backtrackGo])
  | fuel + 1, a, sol, a2, hnd, hsub, h => by
    rw [backtrackGo] at h
    by_cases hlen : a.length = csp.variables.length
    · simp only [hlen, if_true] at h
      obtain ⟨h1, h2⟩ := Prod.mk.injEq .. ▸ h
      obtain rfl : a = sol := by injection h1
      exact ⟨[], by simp, trivial, hlen, hnd, hsub⟩
    · simp only [hlen, if_false] at h
      rcases hsel : select_unassigned_variable a csp with _ | var
      · rw [hsel] at h
        exact absurd (congrArg Prod.fst h) (by simp)
      · rw [hsel] at h
        dsimp only at h
        obtain ⟨hvin, hvnone⟩ := select_some_spec hsel
        exact tryValuesFn_sound csp (backtrackGo csp fuel)
          (backtrackGo_none_restore csp fuel)
          (fun a' sol' a2' => backtrackGo_sound csp fuel a' sol' a2')
          (csp.domains var) var a sol a2 hnd hsub hvin (lookupA_eq_none.1 hvnone) h

end BacktrackSound

/-- C5: if `backtracking_search` returns an assignment, it binds exactly one
value to every declared variable (its keys are a permutation of the variable
list) and every bound value passed the consistency predicate against the
partial assignment present when it was bound; and when no such complete
consistent assignment exists, `backtracking_search` returns `None`. -/
theorem C5_backtracking_solution (V D : Type) [DecidableEq V] (csp : CSP V D)
    (hnd : csp.variables.Nodup) :
    (∀ l, backtracking_search csp = some l →
      (l.map Prod.fst).Perm csp.variables ∧ BindConsistent csp [] l) ∧
    ((¬ ∃ l, (l.map Prod.fst).Perm csp.variables ∧ BindConsistent csp [] l) →
      backtracking_search csp = none) := by
  have main : ∀ l, backtracking_search csp = some l →
      (l.map Prod.fst).Perm csp.variables ∧ BindConsistent csp [] l := by
    intro l h
    rw [backtracking_search] at h
    rcases hpr : backtrackGo csp (csp.variables.length + 1) [] with ⟨r, a2⟩
    rw [hpr] at h
    dsimp only at h
    subst h
    obtain ⟨ext, hsol, hbind, hlen, hnds, hsubs⟩ :=
      backtrackGo_sound csp (csp.variables.length + 1) [] l a2 (by simp) (by simp) hpr
    have hext : ext = l := by rw [hsol]; rfl
    subst hext
    simp only [List.nil_append] at hsol
    refine ⟨?_, hbind⟩
    have hkeylen : (ext.map Prod.fst).length = csp.variables.length := by
      rw [List.length_map]; exact hlen
    exact (List.subperm_of_subset hnds fun v hv => hsubs v hv).perm_of_length_le
      (le_of_eq hkeylen.symm)
  refine ⟨main, ?_⟩
  intro hne
  rcases hbs : backtracking_search csp with _ | l
  · rfl
  · exact absurd ⟨l, main l hbs⟩ hne

/-- C5 witness: the 3-colour triangle is solved by an assignment covering all
three variables, each binding consistent when made. -/
theorem C5_witness :
    (([((0 : Nat), (0 : Nat)), (1, 1), (2, 2)]).map Prod.fst).Perm (triangle 3).variables ∧
      BindConsistent (triangle 3) [] [(0, 0), (1, 1), (2, 2)] :=
  (C5_backtracking_solution Nat Nat (triangle 3) (by decide)).1
    [(0, 0), (1, 1), (2, 2)] (by decide)

/-! ## BFS optimality -/

section BFSOpt

variable {S A : Type} [DecidableEq S]

theorem insertE_eq_true {E : S → Bool} {s t : S} :
    insertE E s t = true ↔ t = s ∨ E t = true := by
  by_cases h : t = s <;> simp [insertE, h]

theorem insertE_mono {E : S → Bool} {s t : S} (h : E t = true) :
    insertE E s t = true :=
  insertE_eq_true.2 (Or.inr h)

theorem bfsScan_inr_spec {p : Problem S A} :
    ∀ {cs : List (Node S A)} {E : S → Bool} {acc : List (Node S A)} {E' : S → Bool}
      {acc' : List (Node S A)},
      bfsScan p cs E acc = .inr (E', acc') →
      ∃ news, acc' = acc ++ news ∧
        (∀ s, E s = true → E' s = true) ∧
        (∀ s, E' s = true →
          E s = true ∨ (p.is_goal s = false ∧ ∃ n ∈ news, n.state = s)) ∧
        (∀ c ∈ cs, E' c.state = true) ∧
        (∀ n ∈ news, n ∈ cs ∧ E n.state = false ∧ p.is_goal n.state = false)
  | [], E, acc, E', acc', h => by
    rw [bfsScan] at h
    injection h with h'
    obtain ⟨h1, h2⟩ := Prod.mk.injEq .. ▸ h'
    subst h1; subst h2
    exact ⟨[], by simp, fun s hs => hs, fun s hs => Or.inl hs, by simp, by simp⟩
  | c :: cs, E, acc, E', acc', h => by
    rw [bfsScan] at h
    by_cases hE : E c.state
    · simp only [hE, if_true] at h
      obtain ⟨news, hacc, h1, h2, h3, hnews⟩ := bfsScan_inr_spec h
      refine ⟨news, hacc, h1, h2, ?_, fun n hn => ?_⟩
      · intro c' hc'
        rcases List.mem_cons.1 hc' with rfl | hc''
        · exact h1 _ hE
        · exact h3 c' hc''
      · obtain ⟨hm, hEn, hgn⟩ := hnews n hn
        exact ⟨List.mem_cons_of_mem _ hm, hEn, hgn⟩
    · simp only [hE, if_false, Bool.false_eq_true] at h
      by_cases hg : p.is_goal c.state
      · simp only [hg, if_true] at h; cases h
      · simp only [hg, if_false, Bool.false_eq_true] at h
        obtain ⟨news, hacc, h1, h2, h3, hnews⟩ := bfsScan_inr_spec h
        refine ⟨c :: news, by rw [hacc, List.append_assoc]; rfl, ?_, ?_, ?_,
          fun n hn => ?_⟩
        · intro s hs
          exact h1 s (insertE_mono hs)
        · intro s hs
          rcases h2 s hs with hs' | ⟨hgs, n, hn, hns⟩
          · rcases insertE_eq_true.1 hs' with rfl | hs''
            · exact Or.inr ⟨by simpa using hg, c, List.mem_cons_self _ _, rfl⟩
            · exact Or.inl hs''
          · exact Or.inr ⟨hgs, n, List.mem_cons_of_mem _ hn, hns⟩
        · intro c' hc'
          rcases List.mem_cons.1 hc' with rfl | hc''
          · exact h1 _ (insertE_eq_true.2 (Or.inl rfl))
          · exact h3 c' hc''
        · rcases List.mem_cons.1 hn with rfl | hn'
          · exact ⟨List.mem_cons_self _ _, by simpa using hE, by simpa using hg⟩
          · obtain ⟨hm, hEn, hgn⟩ := hnews n hn'
            refine ⟨List.mem_cons_of_mem _ hm, ?_, hgn⟩
            by_contra hcon
            have hEtrue : E n.state = true := by simpa using hcon
            have hins : insertE E c.state n.state = true :=
              insertE_eq_true.2 (Or.inr hEtrue)
            rw [hins] at hEn
            exact Bool.noConfusion hEn

theorem head_depth_le {fr : List (Node S A)} {hd : Node S A} {tl : List (Node S A)}
    (hsort : (fr.map Node.depth).Sorted (· ≤ ·)) (hfr : fr = hd :: tl) :
    ∀ n ∈ fr, hd.depth ≤ n.depth := by
  subst hfr
  intro n hn
  rcases List.mem_cons.1 hn with rfl | hn'
  · exact le_refl _
  · exact List.rel_of_sorted_cons (by simpa using hsort) n.depth
      (List.mem_map.2 ⟨n, hn', rfl⟩)

/-- From the loop invariant: every state reachable by an action sequence no
longer than the depth of the frontier head is already explored. -/
theorem bfsInv_reach_explored {p : Problem S A} {fr : List (Node S A)} {E : S → Bool}
    (inv : BfsInv p fr E) {hd : Node S A} {tl : List (Node S A)} (hfr : fr = hd :: tl) :
    ∀ acts t, ReachesIn p p.initial_state acts t → acts.length ≤ hd.depth →
      E t = true := by
  intro acts
  induction acts using List.reverseRecOn with
  | nil =>
    intro t ht _
    rw [ReachesIn_nil] at ht
    subst ht
    exact inv.initE
  | append_singleton as a ih =>
    intro t ht hlen
    obtain ⟨m, hm, hrest⟩ := ReachesIn_append.1 ht
    obtain ⟨ha, hres⟩ := (ReachesIn_cons ..).1 hrest
    rw [ReachesIn_nil] at hres
    have hlen' : as.length ≤ hd.depth := by
      simp only [List.length_append, List.length_cons, List.length_nil] at hlen
      omega
    have hEm := ih m hm hlen'
    rcases inv.expanded m hEm with ⟨n, hn, hns⟩ | hall
    · exfalso
      have h1 : n.depth ≤ as.length := inv.depthMin n hn as (by rw [hns]; exact hm)
      have h2 : hd.depth ≤ n.depth := head_depth_le inv.sorted hfr n hn
      simp only [List.length_append, List.length_cons, List.length_nil] at hlen
      omega
    · rw [hres]
      exact hall a ha

/-- The main BFS loop lemma: from any state satisfying the invariant, a
returned node is a valid goal node whose action trace is no longer than any
legal root-to-goal action sequence. -/
theorem bfsAux_opt {p : Problem S A} :
    ∀ {fuel : Nat} {fr : List (Node S A)} {E : S → Bool} {n : Node S A},
      BfsInv p fr E → bfsAux p fuel fr E = some n →
      ValidNode p n ∧ p.is_goal n.state = true ∧
        ∀ acts t, ReachesIn p p.initial_state acts t → p.is_goal t = true →
          (extract_solution_path n).length ≤ acts.length
  | 0, _, _, _, _, h => by simp [bfsAux] at h
  | _ + 1, [], _, _, _, h => by simp [bfsAux] at h
  | fuel + 1, node :: rest, E, n, inv, h => by
    rw [bfsAux] at h
    have hnodefr : node ∈ node :: rest := List.mem_cons_self _ _
    rcases hscan : bfsScan p (node.expand p) E [] with c | pair
    · rw [hscan] at h
      injection h with h'
      subst h'
      obtain ⟨hgc, hcmem, hEc⟩ := bfsScan_inl hscan
      have hvalid : ValidNode p c := validNode_expand (inv.valid node hnodefr) hcmem
      refine ⟨hvalid, hgc, ?_⟩
      intro acts t hreach hgoal
      by_contra hcon
      push_neg at hcon
      obtain ⟨a, ha, hs, hcost, hd⟩ := expand_state hcmem
      have hle : acts.length ≤ node.depth := by
        have hlen : (extract_solution_path c).length = c.depth := hvalid.2.2
        rw [hlen, hd] at hcon
        omega
      have hEt := bfsInv_reach_explored inv rfl acts t hreach hle
      rw [inv.noGoal t hEt] at hgoal
      exact Bool.noConfusion hgoal
    · rw [hscan] at h
      obtain ⟨E', queued⟩ := pair
      obtain ⟨news, hacc, h1, h2, h3, hnews⟩ := bfsScan_inr_spec hscan
      simp only [List.nil_append] at hacc
      rw [hacc] at h
      have hdepths : ∀ m ∈ news, m.depth = node.depth + 1 := by
        intro m hm
        obtain ⟨a, ha, hs, hc, hd⟩ := expand_state (hnews m hm).1
        exact hd
      have hlow : ∀ m ∈ rest ++ news, node.depth ≤ m.depth := by
        intro m hm
        rcases List.mem_append.1 hm with hm' | hm'
        · exact head_depth_le inv.sorted rfl m (List.mem_cons_of_mem _ hm')
        · rw [hdepths m hm']
          omega
      have hup : ∀ m ∈ rest ++ news, m.depth ≤ node.depth + 1 := by
        intro m hm
        rcases List.mem_append.1 hm with hm' | hm'
        · exact inv.band m (List.mem_cons_of_mem _ hm') node rest rfl
        · rw [hdepths m hm']
      have inv' : BfsInv p (rest ++ news) E' := by
        refine ⟨?_, ?_, ?_, ?_, ?_, ?_, ?_, ?_⟩
        · intro n' hn'
          rcases List.mem_append.1 hn' with hn'' | hn''
          · exact inv.valid n' (List.mem_cons_of_mem _ hn'')
          · exact validNode_expand (inv.valid node hnodefr) (hnews n' hn'').1
        · rw [List.map_append]
          refine List.pairwise_append.2 ⟨?_, ?_, ?_⟩
          · exact (by simpa using inv.sorted : (node.depth :: rest.map Node.depth).Sorted (· ≤ ·)).of_cons
          · refine List.pairwise_map.2 (List.pairwise_of_forall_mem_list ?_)
            intro m hm m' hm'
            rw [hdepths m hm, hdepths m' hm']
          · intro d1 hd1 d2 hd2
            obtain ⟨n1, hn1, rfl⟩ := List.mem_map.1 hd1
            obtain ⟨n2, hn2, rfl⟩ := List.mem_map.1 hd2
            rw [hdepths n2 hn2]
            exact inv.band n1 (List.mem_cons_of_mem _ hn1) node rest rfl
        · intro n' hn' hd' tl' heq
          have hhd : hd' ∈ rest ++ news := by
            rw [heq]
            exact List.mem_cons_self _ _
          calc n'.depth ≤ node.depth + 1 := hup n' hn'
            _ ≤ hd'.depth + 1 := by have := hlow hd' hhd; omega
        · intro n' hn'
          rcases List.mem_append.1 hn' with hn'' | hn''
          · exact h1 _ (inv.memE n' (List.mem_cons_of_mem _ hn''))
          · exact h3 n' (hnews n' hn'').1
        · intro s hs
          rcases h2 s hs with hs' | ⟨hg, -⟩
          · exact inv.noGoal s hs'
          · exact hg
        · intro s hs
          rcases h2 s hs with hs' | ⟨-, m, hm, hms⟩
          · rcases inv.expanded s hs' with ⟨n', hn', hns⟩ | hall
            · rcases List.mem_cons.1 hn' with rfl | hn''
              · refine Or.inr ?_
                intro a ha
                rw [← hns]
                have hchild := expand_covers n' (by rw [hns]; exact ha)
                have := h3 _ hchild
                simpa using this
              · exact Or.inl ⟨n', List.mem_append.2 (Or.inl hn''), hns⟩
            · exact Or.inr fun a ha => h1 _ (hall a ha)
          · exact Or.inl ⟨m, List.mem_append.2 (Or.inr hm), hms⟩
        · intro n' hn' acts hreach
          rcases List.mem_append.1 hn' with hn'' | hn''
          · exact inv.depthMin n' (List.mem_cons_of_mem _ hn'') acts hreach
          · rw [hdepths n' hn'']
            by_contra hcon
            push_neg at hcon
            have hle : acts.length ≤ node.depth := by omega
            have hEt := bfsInv_reach_explored inv rfl acts n'.state hreach hle
            have := (hnews n' hn'').2.1
            rw [hEt] at this
            exact Bool.noConfusion this
        · exact h1 _ inv.initE
      exact bfsAux_opt inv' h

end BFSOpt

/-- C2: for every goal-oriented problem with uniform or absent step costs, if
`bfs` returns a node then its extracted action sequence really leads from the
initial state to its (goal) state, and its length is minimal among all
root-to-goal action sequences of the problem.  (The goal test on the initial
state before the loop and on each child before enqueue makes the first
solution found a shallowest one.) -/
theorem C2_bfs_minimal_actions (S A : Type) [DecidableEq S] (p : Problem S A)
    (hu : UniformCosts p) (fuel : Nat) (n : Node S A)
    (h : bfs p fuel = some n) :
    ReachesIn p p.initial_state (extract_solution_path n) n.state ∧
    p.is_goal n.state = true ∧
    ∀ acts t, ReachesIn p p.initial_state acts t → p.is_goal t = true →
      (extract_solution_path n).length ≤ acts.length := by
  rw [bfs] at h
  by_cases hg : p.is_goal p.initial_state
  · simp only [hg, if_true] at h
    injection h with h'
    subst h'
    exact ⟨rfl, hg, fun acts t _ _ => by simp [rootNode, extract_solution_path]⟩
  · simp only [hg, if_false, Bool.false_eq_true] at h
    have inv : BfsInv p [rootNode p] (insertE (fun _ => false) p.initial_state) := by
      refine ⟨?_, ?_, ?_, ?_, ?_, ?_, ?_, ?_⟩
      · intro n' hn'
        rcases List.mem_singleton.1 hn' with rfl
        exact validNode_root p
      · simp
      · intro n' hn' hd' tl' heq
        rcases List.mem_singleton.1 hn' with rfl
        injection heq with h1 h2
        rw [← h1]
        omega
      · intro n' hn'
        rcases List.mem_singleton.1 hn' with rfl
        exact insertE_eq_true.2 (Or.inl rfl)
      · intro s hs
        rcases insertE_eq_true.1 hs with rfl | hs'
        · simpa using hg
        · exact Bool.noConfusion hs'
      · intro s hs
        rcases insertE_eq_true.1 hs with rfl | hs'
        · exact Or.inl ⟨rootNode p, List.mem_singleton.2 rfl, rfl⟩
        · exact Bool.noConfusion hs'
      · intro n' hn' acts hreach
        rcases List.mem_singleton.1 hn' with rfl
        simp [rootNode]
      · exact insertE_eq_true.2 (Or.inl rfl)
    obtain ⟨hvalid, hgoal, hmin⟩ := bfsAux_opt inv h
    exact ⟨hvalid.1, hgoal, hmin⟩

/-- C2 witness: on the costless line `0 → 1 → 2`, BFS returns the depth-2 goal
node and its two-action path is no longer than the concrete solution `[1, 1]`. -/
theorem C2_witness :
    ReachesIn egLine egLine.initial_state (extract_solution_path egLineGoalNode)
        egLineGoalNode.state ∧
      (extract_solution_path egLineGoalNode).length ≤ [1, 1].length := by
  obtain ⟨hreach, hgoal, hmin⟩ :=
    C2_bfs_minimal_actions Nat Nat egLine (Or.inl rfl) 10 egLineGoalNode (by rfl)
  exact ⟨hreach, hmin [1, 1] 2 (by decide) (by decide)⟩

/-! ## A* optimality -/

section AStarOpt

variable {S A : Type} [DecidableEq S]

theorem popMinGo_spec :
    ∀ (best : ℤ × Node S A) (es : List (ℤ × Node S A)),
      (best :: es).Perm ((popMinGo best es).1 :: (popMinGo best es).2) ∧
      (popMinGo best es).1.1 ≤ best.1 ∧ ∀ x ∈ es, (popMinGo best es).1.1 ≤ x.1
  | best, [] => ⟨by rw [popMinGo], le_refl _, by simp⟩
  | best, e :: es => by
    rw [popMinGo]
    by_cases hlt : e.1 < best.1
    · simp only [hlt, if_true]
      obtain ⟨hperm, hle, hall⟩ := popMinGo_spec e es
      refine ⟨?_, le_of_lt (lt_of_le_of_lt hle hlt), ?_⟩
      · exact (List.Perm.cons best hperm).trans (List.Perm.swap _ _ _)
      · intro x hx
        rcases List.mem_cons.1 hx with rfl | hx'
        · exact hle
        · exact hall x hx'
    · simp only [hlt, if_false]
      obtain ⟨hperm, hle, hall⟩ := popMinGo_spec best es
      refine ⟨?_, hle, ?_⟩
      · exact (List.Perm.swap _ _ _).trans
          ((List.Perm.cons e hperm).trans (List.Perm.swap _ _ _))
      · intro x hx
        rcases List.mem_cons.1 hx with rfl | hx'
        · exact le_trans hle (le_of_not_lt hlt)
        · exact hall x hx'

theorem popMin_spec {fr : List (ℤ × Node S A)} {e : ℤ × Node S A}
    {rest : List (ℤ × Node S A)} (hp : popMin fr = some (e, rest)) :
    fr.Perm (e :: rest) ∧ (∀ x ∈ fr, e.1 ≤ x.1) ∧ e ∈ fr ∧ ∀ x ∈ rest, x ∈ fr := by
  rcases fr with _ | ⟨y, ys⟩
  · simp [popMin] at hp
  · rw [popMin] at hp
    injection hp with hp'
    obtain ⟨hperm, hle, hall⟩ := popMinGo_spec y ys
    rw [hp'] at hperm hle hall
    refine ⟨hperm, ?_, ?_, ?_⟩
    · intro x hx
      rcases List.mem_cons.1 hx with rfl | hx'
      · exact hle
      · exact hall x hx'
    · exact hperm.mem_iff.2 (List.mem_cons_self _ _)
    · intro x hx
      exact hperm.mem_iff.2 (List.mem_cons_of_mem _ hx)

theorem relaxChildren_spec (p : Problem S A) (h : S → ℤ) :
    ∀ (cs : List (Node S A)) (fr : List (ℤ × Node S A)) (m : S → Option ℤ),
      (∀ s g, m s = some g →
        ∃ g', (relaxChildren p h cs fr m).2 s = some g' ∧ g' ≤ g) ∧
      (∃ pushed, (relaxChildren p h cs fr m).1 = fr ++ pushed ∧
        ∀ e ∈ pushed, e.2 ∈ cs ∧ e.1 = e.2.path_cost + h e.2.state) ∧
      (∀ c ∈ cs, ∃ g', (relaxChildren p h cs fr m).2 c.state = some g' ∧
        g' ≤ c.path_cost) ∧
      (∀ s g', (relaxChildren p h cs fr m).2 s = some g' → m s = some g' ∨
        ∃ e ∈ (relaxChildren p h cs fr m).1, e.2.state = s ∧ e.2.path_cost = g' ∧
          e.1 = e.2.path_cost + h e.2.state) ∧
      (∀ e ∈ (relaxChildren p h cs fr m).1, e ∈ fr ∨
        ∃ c, (relaxChildren p h cs fr m).2 e.2.state = some c ∧ c ≤ e.2.path_cost) ∧
      (∀ s gs, m s = some gs → (∀ c ∈ cs, c.state = s → gs ≤ c.path_cost) →
        (relaxChildren p h cs fr m).2 s = some gs)
  | [], fr, m => by
    refine ⟨fun s g hg => ⟨g, hg, le_refl _⟩, ⟨[], by simp [relaxChildren], by simp⟩,
      by simp, fun s g' hg' => Or.inl hg', fun e he => Or.inl (by simpa [relaxChildren] using he),
      fun s gs hgs _ => hgs⟩
  | c :: cs, fr, m => by
    rw [relaxChildren]
    by_cases hbet : (match m c.state with
      | none => true
      | some old => decide (c.path_cost < old)) = true
    · simp only [hbet, if_true]
      obtain ⟨ih1, ⟨pushed, hpushed, hpprop⟩, ih3, ih4, ih5, ih6⟩ :=
        relaxChildren_spec p h cs (fr ++ [(c.path_cost + h c.state, c)])
          (updateCost m c.state c.path_cost)
      have hupd : ∀ s, updateCost m c.state c.path_cost s =
          if s = c.state then some c.path_cost else m s := fun s => rfl
      refine ⟨?_, ?_, ?_, ?_, ?_, ?_⟩
      · intro s g hg
        by_cases hsc : s = c.state
        · have hgc : m c.state = some g := by rw [← hsc]; exact hg
          have hlt : c.path_cost < g := by
            rw [hgc] at hbet
            simpa using hbet
          obtain ⟨g', hg', hle⟩ := ih1 s c.path_cost (by rw [hupd s, if_pos hsc])
          exact ⟨g', hg', le_trans hle (le_of_lt hlt)⟩
        · obtain ⟨g', hg', hle⟩ := ih1 s g (by rw [hupd s, if_neg hsc]; exact hg)
          exact ⟨g', hg', hle⟩
      · refine ⟨(c.path_cost + h c.state, c) :: pushed, ?_, ?_⟩
        · rw [hpushed, List.append_assoc]
          rfl
        · intro e he
          rcases List.mem_cons.1 he with rfl | he'
          · exact ⟨List.mem_cons_self _ _, rfl⟩
          · obtain ⟨hmem, hf⟩ := hpprop e he'
            exact ⟨List.mem_cons_of_mem _ hmem, hf⟩
      · intro c' hc'
        rcases List.mem_cons.1 hc' with rfl | hc''
        · obtain ⟨g', hg', hle⟩ := ih1 c'.state c'.path_cost (by rw [hupd]; simp)
          exact ⟨g', hg', hle⟩
        · exact ih3 c' hc''
      · intro s g' hg'
        rcases ih4 s g' hg' with hup | hwit
        · rw [hupd] at hup
          by_cases hsc : s = c.state
          · subst hsc
            simp only [if_pos rfl] at hup
            injection hup with hup'
            refine Or.inr ⟨(c.path_cost + h c.state, c), ?_, rfl, hup'.symm ▸ rfl, rfl⟩
            rw [hpushed]
            exact List.mem_append.2 (Or.inl (List.mem_append.2 (Or.inr (List.mem_singleton.2 rfl))))
          · simp only [if_neg hsc] at hup
            exact Or.inl hup
        · exact Or.inr hwit
      · intro e he
        rcases ih5 e he with hmem | hlive
        · rcases List.mem_append.1 hmem with hmem' | hmem'
          · exact Or.inl hmem'
          · rcases List.mem_singleton.1 hmem' with rfl
            obtain ⟨g', hg', hle⟩ := ih1 c.state c.path_cost (by rw [hupd]; simp)
            exact Or.inr ⟨g', hg', hle⟩
        · exact Or.inr hlive
      · intro s gs hgs hnone
        by_cases hsc : s = c.state
        · subst hsc
          exfalso
          rw [hgs] at hbet
          have := hnone c (List.mem_cons_self _ _) rfl
          simp only [decide_eq_true_eq] at hbet
          omega
        · refine ih6 s gs (by rw [hupd]; simp [hsc, hgs]) ?_
          intro c' hc' hcs
          exact hnone c' (List.mem_cons_of_mem _ hc') hcs
    · simp only [hbet, Bool.false_eq_true, if_false]
      have hold : ∃ old, m c.state = some old ∧ old ≤ c.path_cost := by
        rcases hm : m c.state with _ | old
        · rw [hm] at hbet; simp at hbet
        · rw [hm] at hbet
          simp only [decide_eq_true_eq] at hbet
          exact ⟨old, rfl, by omega⟩
      obtain ⟨ih1, ⟨pushed, hpushed, hpprop⟩, ih3, ih4, ih5, ih6⟩ :=
        relaxChildren_spec p h cs fr m
      refine ⟨ih1, ⟨pushed, hpushed, fun e he => ?_⟩, ?_, ih4, ih5, ?_⟩
      · obtain ⟨hm, hf⟩ := hpprop e he
        exact ⟨List.mem_cons_of_mem _ hm, hf⟩
      · intro c' hc'
        rcases List.mem_cons.1 hc' with rfl | hc''
        · obtain ⟨old, hm, hle⟩ := hold
          obtain ⟨g', hg', hle'⟩ := ih1 c'.state old hm
          exact ⟨g', hg', le_trans hle' hle⟩
        · exact ih3 c' hc''
      · intro s gs hgs hnone
        refine ih6 s gs hgs ?_
        intro c' hc' hcs
        exact hnone c' (List.mem_cons_of_mem _ hc') hcs

/-- The chain lemma: under the invariant, for every legal action sequence from
a mapped state `s` to a goal, some frontier entry has f-score at most
`m s + cost of the sequence`.  (Walks along the sequence through closed states
until a live frontier entry is found; admissibility bounds `h` by the cost of
the remaining path.) -/
theorem astarInv_chain {p : Problem S A} {h : S → ℤ} {fr : List (ℤ × Node S A)}
    {m : S → Option ℤ} {C : S → Prop} (inv : AstarInv p h fr m C)
    (hadm : Admissible p h) :
    ∀ (acts : List A) (s t : S) (g : ℤ), ReachesIn p s acts t → p.is_goal t = true →
      m s = some g → ∃ e ∈ fr, e.1 ≤ g + pathCost p s acts := by
  intro acts
  induction acts with
  | nil =>
    intro s t g hreach hgoal hm
    rw [ReachesIn_nil] at hreach
    subst hreach
    rcases inv.covered t g hm with hC | ⟨e, he, hes, heg⟩
    · have hng := (inv.closed t hC).1
      rw [hgoal] at hng
      exact Bool.noConfusion hng
    · obtain ⟨hv, hf, hlive⟩ := inv.entries e he
      refine ⟨e, he, ?_⟩
      have hh : h t ≤ pathCost p t [] := hadm t [] t rfl hgoal
      rw [pathCost_nil] at hh ⊢
      rw [hf, hes, heg]
      linarith
  | cons a as ih =>
    intro s t g hreach hgoal hm
    obtain ⟨ha, hrest⟩ := (ReachesIn_cons ..).1 hreach
    rcases inv.covered s g hm with hC | ⟨e, he, hes, heg⟩
    · obtain ⟨hng, g0, hg0, hchild⟩ := inv.closed s hC
      have hg0g : g0 = g := by
        rw [hm] at hg0
        injection hg0 with h'
        exact h'.symm
      subst hg0g
      obtain ⟨g', hg', hle⟩ := hchild a ha
      obtain ⟨e, he, hef⟩ := ih (p.result s a) t g' hrest hgoal hg'
      refine ⟨e, he, ?_⟩
      rw [pathCost_cons]
      linarith
    · obtain ⟨hv, hf, hlive⟩ := inv.entries e he
      refine ⟨e, he, ?_⟩
      have hh : h s ≤ pathCost p s (a :: as) := hadm s (a :: as) t hreach hgoal
      rw [hf, hes, heg]
      linarith

/-- The main A* loop lemma: under the invariant, with nonnegative step costs
and a nonnegative admissible heuristic, a returned node is a valid goal node
whose path cost is at most the cost of any legal root-to-goal action
sequence. -/
theorem astarAux_opt {p : Problem S A} {h : S → ℤ}
    (hcost : NonnegCosts p) (hh0 : ∀ s, 0 ≤ h s) (hadm : Admissible p h) :
    ∀ {fuel : Nat} {fr : List (ℤ × Node S A)} {m : S → Option ℤ} {n : Node S A},
      (∃ C, AstarInv p h fr m C) → astarAux p h fuel fr m = some n →
      ValidNode p n ∧ p.is_goal n.state = true ∧
        ∀ acts t, ReachesIn p p.initial_state acts t → p.is_goal t = true →
          n.path_cost ≤ pathCost p p.initial_state acts
  | 0, fr, m, n, _, hret => by simp [astarAux] at hret
  | fuel + 1, fr, m, n, hinv, hret => by
    obtain ⟨C, inv⟩ := hinv
    rw [astarAux] at hret
    rcases hpop : popMin fr with _ | ⟨e, rest⟩
    · rw [hpop] at hret
      simp at hret
    · rw [hpop] at hret
      obtain ⟨hperm, hmin, hmem, hsub⟩ := popMin_spec hpop
      obtain ⟨hv_e, hf_e, c, hmc, hcle⟩ := inv.entries e hmem
      by_cases hstale : staleEntry m e.2 = true
      · simp only [hstale, if_true] at hret
        have hstale' : c < e.2.path_cost := by
          unfold staleEntry at hstale
          rw [hmc] at hstale
          simpa using hstale
        refine astarAux_opt hcost hh0 hadm ⟨C, ?_⟩ hret
        refine ⟨fun e' he' => inv.entries e' (hsub e' he'), inv.closed, ?_, inv.initMem⟩
        intro s g hm
        rcases inv.covered s g hm with hC | ⟨e', he', hes, heg⟩
        · exact Or.inl hC
        · rcases List.mem_cons.1 (hperm.mem_iff.1 he') with rfl | he''
          · exfalso
            rw [hes] at hmc
            rw [hm] at hmc
            injection hmc with h'
            omega
          · exact Or.inr ⟨e', he'', hes, heg⟩
      · simp only [hstale, Bool.false_eq_true, if_false] at hret
        have hceq : c = e.2.path_cost := by
          refine le_antisymm hcle ?_
          unfold staleEntry at hstale
          rw [hmc] at hstale
          simpa using hstale
        subst hceq
        by_cases hgoal : p.is_goal e.2.state = true
        · simp only [hgoal, if_true] at hret
          injection hret with hret'
          refine ⟨hret' ▸ hv_e, hret' ▸ hgoal, ?_⟩
          intro acts t hreach hgt
          obtain ⟨g0, hg0, hg0le⟩ := inv.initMem
          obtain ⟨e', he', hef⟩ :=
            astarInv_chain inv hadm acts p.initial_state t g0 hreach hgt hg0
          have h1 : e.1 ≤ e'.1 := hmin e' he'
          have h3 : 0 ≤ h e.2.state := hh0 _
          rw [← hret']
          rw [hf_e] at h1
          linarith
        · simp only [hgoal, Bool.false_eq_true, if_false] at hret
          obtain ⟨sp1, ⟨pushed, hpushed, hpprop⟩, sp3, sp4, sp5, sp6⟩ :=
            relaxChildren_spec p h (e.2.expand p) rest m
          have hngoal : p.is_goal e.2.state = false := by simpa using hgoal
          have hm2e : (relaxChildren p h (e.2.expand p) rest m).2 e.2.state =
              some e.2.path_cost := by
            refine sp6 e.2.state e.2.path_cost hmc ?_
            intro c' hc' hcs
            obtain ⟨a, ha, hs, hcst, hd⟩ := expand_state hc'
            rw [hcst]
            have := hcost e.2.state a (p.result e.2.state a)
            linarith
          refine astarAux_opt hcost hh0 hadm
            ⟨fun s => (C s ∧ (relaxChildren p h (e.2.expand p) rest m).2 s = m s) ∨
              s = e.2.state, ?_⟩ hret
          refine ⟨?_, ?_, ?_, ?_⟩
          · intro e' he'
            rcases List.mem_append.1 (hpushed ▸ he') with hr | hp
            · obtain ⟨hv', hf', c', hmc', hcle'⟩ := inv.entries e' (hsub e' hr)
              obtain ⟨c'', hc'', hle''⟩ := sp1 e'.2.state c' hmc'
              exact ⟨hv', hf', c'', hc'', le_trans hle'' hcle'⟩
            · obtain ⟨hmemc, hf'⟩ := hpprop e' hp
              refine ⟨validNode_expand hv_e hmemc, hf', ?_⟩
              rcases sp5 e' he' with hr' | hlive
              · obtain ⟨hv'', hf'', c', hmc', hcle'⟩ := inv.entries e' (hsub e' hr')
                obtain ⟨c'', hc'', hle''⟩ := sp1 e'.2.state c' hmc'
                exact ⟨c'', hc'', le_trans hle'' hcle'⟩
              · exact hlive
          · intro s hCs
            rcases hCs with ⟨hCs, hms⟩ | rfl
            · obtain ⟨hng', g₀, hm₀, hchild⟩ := inv.closed s hCs
              refine ⟨hng', g₀, by rw [hms]; exact hm₀, ?_⟩
              intro a ha
              obtain ⟨g', hg', hle'⟩ := hchild a ha
              obtain ⟨g'', hg'', hle''⟩ := sp1 (p.result s a) g' hg'
              exact ⟨g'', hg'', le_trans hle'' hle'⟩
            · refine ⟨hngoal, e.2.path_cost, hm2e, ?_⟩
              intro a ha
              obtain ⟨g', hg', hle'⟩ := sp3 _ (expand_covers e.2 ha)
              refine ⟨g', ?_, ?_⟩
              · simpa using hg'
              · simpa using hle'
          · intro s g hm2s
            rcases sp4 s g hm2s with hms | ⟨e', he', hes, heg, hf'⟩
            · rcases inv.covered s g hms with hC | ⟨e', he', hes, heg⟩
              · exact Or.inl (Or.inl ⟨hC, by rw [hm2s, hms]⟩)
              · rcases List.mem_cons.1 (hperm.mem_iff.1 he') with rfl | he''
                · exact Or.inl (Or.inr hes.symm)
                · refine Or.inr ⟨e', ?_, hes, heg⟩
                  rw [hpushed]
                  exact List.mem_append.2 (Or.inl he'')
            · exact Or.inr ⟨e', he', hes, heg⟩
          · obtain ⟨g0, hg0, hg0le⟩ := inv.initMem
            obtain ⟨g0', hg0', hle'⟩ := sp1 p.initial_state g0 hg0
            exact ⟨g0', hg0', le_trans hle' hg0le⟩

/-- A* optimality from the entry point: with nonnegative step costs and a
nonnegative admissible heuristic, a returned node is a valid goal node of
minimal path cost. -/
theorem astar_optimal {p : Problem S A} {h : S → ℤ}
    (hcost : NonnegCosts p) (hh0 : ∀ s, 0 ≤ h s) (hadm : Admissible p h)
    {fuel : Nat} {n : Node S A} (hret : astar p h fuel = some n) :
    ValidNode p n ∧ p.is_goal n.state = true ∧
      ∀ acts t, ReachesIn p p.initial_state acts t → p.is_goal t = true →
        n.path_cost ≤ pathCost p p.initial_state acts := by
  rw [astar] at hret
  by_cases hg : p.is_goal p.initial_state
  · simp only [hg, if_true] at hret
    injection hret with hret'
    refine ⟨hret' ▸ validNode_root p, hret' ▸ hg, ?_⟩
    intro acts t _ _
    rw [← hret']
    simpa using pathCost_nonneg hcost p.initial_state acts
  · simp only [hg, Bool.false_eq_true, if_false] at hret
    refine astarAux_opt hcost hh0 hadm ⟨fun _ => False, ?_⟩ hret
    refine ⟨?_, ?_, ?_, ?_⟩
    · intro e he
      rcases List.mem_singleton.1 he with rfl
      exact ⟨validNode_root p, rfl, 0, by simp [updateCost], le_refl _⟩
    · intro s hs
      exact absurd hs (fun hf => hf)
    · intro s g hm
      by_cases hsi : s = p.initial_state
      · subst hsi
        have hg0 : g = 0 := by
          have h0 : (some (0 : ℤ)) = some g := by
            rw [← hm]
            simp [updateCost]
          simpa using h0.symm
        exact Or.inr ⟨((rootNode p).path_cost + h p.initial_state, rootNode p),
          List.mem_singleton.2 rfl, rfl, by simp [hg0]⟩
      · exfalso
        have h0 : updateCost (fun _ => none) p.initial_state
            (rootNode p).path_cost s = none := by simp [updateCost, hsi]
        rw [hm] at h0
        exact Option.noConfusion h0
    · exact ⟨0, by simp [updateCost], le_refl _⟩

end AStarOpt

/-- C1 counterexample: the heuristic `hNeg` satisfies the claim's literal
admissibility condition on `egNegH` (it never exceeds the cost of any goal
path), the step costs are nonnegative, yet `astar` returns a node of path
cost `10` while a goal path of cost `1` exists, and `uniform_cost_search`
returns path cost `1 ≠ 10`: the claim as stated is false on this input. -/
theorem C1_counterexample :
    Admissible egNegH hNeg ∧
    egNegH.step_cost = some egNegHCost ∧ (∀ s a t, 0 ≤ egNegHCost s a t) ∧
    astar egNegH hNeg 10 = some egNegHBad ∧
    uniform_cost_search egNegH 10 = some egNegHGood ∧
    GoalPath egNegH [1] 2 ∧
    pathCost egNegH egNegH.initial_state [1] = 1 ∧
    egNegHBad.path_cost = 10 ∧ egNegHGood.path_cost = 1 ∧
    ¬(∀ acts t, GoalPath egNegH acts t →
        egNegHBad.path_cost ≤ pathCost egNegH egNegH.initial_state acts) ∧
    egNegHBad.path_cost ≠ egNegHGood.path_cost := by
  have hcost : NonnegCosts egNegH := by
    intro s a t
    show (0 : ℤ) ≤ egNegHCost s a t
    rw [egNegHCost]
    split <;> norm_num
  refine ⟨?_, rfl, ?_, by rfl, by rfl, ⟨by decide, by decide⟩, by decide, rfl, rfl, ?_, by decide⟩
  · intro s acts t hreach hgoal
    have h0 : hNeg s ≤ 0 := by
      rw [hNeg]
      split <;> norm_num
    have h1 := pathCost_nonneg hcost s acts
    linarith
  · intro s a t
    rw [egNegHCost]
    split <;> norm_num
  · intro hall
    have := hall [1] 2 ⟨by decide, by decide⟩
    rw [show pathCost egNegH egNegH.initial_state [1] = 1 by decide] at this
    rw [show egNegHBad.path_cost = 10 by rfl] at this
    norm_num at this

/-- C1 (amended): for every cost-sensitive goal-oriented problem with
nonnegative step costs and every nonnegative admissible heuristic `h`, a node
returned by `astar` carries a real goal path whose cost equals its
`path_cost`, that cost is minimal among all root-to-goal action sequences,
and `astar` and `uniform_cost_search` agree exactly on `path_cost` whenever
both return. -/
theorem C1_astar_optimal_and_ucs_agree (S A : Type) [DecidableEq S] (p : Problem S A)
    (h : S → ℤ) (sc : S → A → S → ℤ)
    (hsc : p.step_cost = some sc) (hscpos : ∀ s a t, 0 ≤ sc s a t)
    (hh0 : ∀ s, 0 ≤ h s) (hadm : Admissible p h) (fuel : Nat) (n : Node S A)
    (hret : astar p h fuel = some n) :
    (GoalPath p (extract_solution_path n) n.state ∧
      pathCost p p.initial_state (extract_solution_path n) = n.path_cost) ∧
    (∀ acts t, GoalPath p acts t → n.path_cost ≤ pathCost p p.initial_state acts) ∧
    (∀ fuel' n', uniform_cost_search p fuel' = some n' →
      n.path_cost = n'.path_cost) := by
  have hcost : NonnegCosts p := by
    intro s a t
    rw [stepCostOf, hsc]
    exact hscpos s a t
  obtain ⟨hv, hg, hmin⟩ := astar_optimal hcost hh0 hadm hret
  have hnulladm : Admissible p null_heuristic := by
    intro s acts t _ _
    simpa [null_heuristic] using pathCost_nonneg hcost s acts
  refine ⟨⟨⟨hv.1, hg⟩, hv.2.1⟩, fun acts t hgp => hmin acts t hgp.1 hgp.2, ?_⟩
  intro fuel' n' hret'
  obtain ⟨hv', hg', hmin'⟩ :=
    astar_optimal hcost (fun s => le_refl (0 : ℤ)) hnulladm hret'
  have h1 : n.path_cost ≤ n'.path_cost := by
    have hx := hmin (extract_solution_path n') n'.state hv'.1 hg'
    rw [hv'.2.1] at hx
    exact hx
  have h2 : n'.path_cost ≤ n.path_cost := by
    have hx := hmin' (extract_solution_path n) n.state hv.1 hg
    rw [hv.2.1] at hx
    exact hx
  exact le_antisymm h1 h2

/-- C1 witness (for the amended theorem): on the unit-cost line with the null
heuristic, A* returns the cost-2 goal node, its cost is at most that of the
concrete solution `[1, 1]`, and it agrees with `uniform_cost_search`. -/
theorem C1_witness :
    (GoalPath egLineC (extract_solution_path egLineGoalNode) egLineGoalNode.state ∧
      pathCost egLineC egLineC.initial_state (extract_solution_path egLineGoalNode) =
        egLineGoalNode.path_cost) ∧
    egLineGoalNode.path_cost ≤ pathCost egLineC egLineC.initial_state [1, 1] := by
  obtain ⟨hsol, hmin, hagree⟩ :=
    C1_astar_optimal_and_ucs_agree Nat Nat egLineC null_heuristic
      (fun _ _ _ => 1) rfl (fun s a t => by norm_num)
      (fun s => le_refl (0 : ℤ))
      (fun s acts t _ _ => pathCost_nonneg
        (fun s' a' t' => by rw [stepCostOf]; norm_num [egLineC]) s acts)
      10 egLineGoalNode (by rfl)
  exact ⟨hsol, hmin [1, 1] 2 ⟨by decide, by decide⟩⟩

end Pathos
